import Mathlib

/-!
Verification of the gocov coverage engine against its specification.

The definitions below are shallow embeddings of the Go source:
* `Gocov.Stmt`, `Gocov.Fn`, `Gocov.Pkg` and their `accumulate` operations
  embed `Statement.Accumulate`, `Function.Accumulate`, `Package.Accumulate`
  from `gocov.go`.  Go's in-place mutation of the receiver is modelled by
  returning the (possibly partially updated) receiver together with an
  optional error; the argument is never written by the source, so it is
  not returned.
* Machine integers (`int`, `int64`) are modelled as `Int`; overflow does
  not matter for any claim considered here.
-/

namespace Gocov

/-- `gocov.Statement`: start/end offsets plus the `Reached` counter. -/
structure Stmt where
  start : Int
  end_ : Int
  reached : Int
deriving DecidableEq, Repr

/-- `gocov.Function`: structural fields, child statements, counters. -/
structure Fn where
  name : String
  file : String
  start : Int
  end_ : Int
  statements : List Stmt
  entered : Int
  left : Int
deriving DecidableEq, Repr

/-- `gocov.Package`: canonical name plus registered functions. -/
structure Pkg where
  name : String
  functions : List Fn
deriving DecidableEq, Repr

/-- `(*Statement).Accumulate`: validate the source range, then sum
`Reached`.  Returns the receiver (mutated on success) and an optional
error message. -/
def Stmt.accumulate (s s2 : Stmt) : Stmt × Option String :=
  if s.start ≠ s2.start ∨ s.end_ ≠ s2.end_ then
    (s, some "Source ranges do not match")
  else
    ({ s with reached := s.reached + s2.reached }, none)

/-- The statement loop of `(*Function).Accumulate`: accumulate pairwise,
stopping at the first error; statements after the failure point keep
their old values (the Go loop returns early). -/
def accStmts : List Stmt → List Stmt → List Stmt × Option String
  | [], _ => ([], none)
  | s :: ss, [] => (s :: ss, some "Number of statements do not match")
  | s :: ss, t :: ts =>
    match Stmt.accumulate s t with
    | (s', some e) => (s' :: ss, some e)
    | (s', none) =>
      match accStmts ss ts with
      | (rest, e?) => (s' :: rest, e?)

/-- `(*Function).Accumulate`: validate name, file, range and statement
count, then sum `Entered`/`Left`, then accumulate statements pairwise.
Note the counters are summed *before* the statement loop runs, exactly
as in the source. -/
def Fn.accumulate (f f2 : Fn) : Fn × Option String :=
  if f.name ≠ f2.name then
    (f, some "Names do not match")
  else if f.file ≠ f2.file then
    (f, some "Files do not match")
  else if f.start ≠ f2.start ∨ f.end_ ≠ f2.end_ then
    (f, some "Source ranges do not match")
  else if f.statements.length ≠ f2.statements.length then
    (f, some "Number of statements do not match")
  else
    let f1 := { f with entered := f.entered + f2.entered,
                       left := f.left + f2.left }
    match accStmts f1.statements f2.statements with
    | (ss, e?) => ({ f1 with statements := ss }, e?)

/-- The function loop of `(*Package).Accumulate`. -/
def accFns : List Fn → List Fn → List Fn × Option String
  | [], _ => ([], none)
  | f :: fs, [] => (f :: fs, some "Function counts do not match")
  | f :: fs, g :: gs =>
    match Fn.accumulate f g with
    | (f', some e) => (f' :: fs, some e)
    | (f', none) =>
      match accFns fs gs with
      | (rest, e?) => (f' :: rest, e?)

/-- `(*Package).Accumulate`: validate name and function count, then
accumulate functions pairwise. -/
def Pkg.accumulate (p p2 : Pkg) : Pkg × Option String :=
  if p.name ≠ p2.name then
    (p, some "Names do not match")
  else if p.functions.length ≠ p2.functions.length then
    (p, some "Function counts do not match")
  else
    match accFns p.functions p2.functions with
    | (fs, e?) => ({ p with functions := fs }, e?)

/-! Structural-identity predicates (Booleans so witnesses can evaluate).
Two entities "match" when every structural field is equal and child
collections match pairwise; counters are excluded. -/

/-- Structural identity of statements: equal offsets. -/
def Stmt.matches_ (s t : Stmt) : Bool :=
  s.start = t.start ∧ s.end_ = t.end_

/-- Structural identity of functions: equal name, file, offsets, and
pairwise matching statements. -/
def Fn.matches_ (f g : Fn) : Bool :=
  f.name = g.name ∧ f.file = g.file ∧ f.start = g.start ∧ f.end_ = g.end_ ∧
    f.statements.length = g.statements.length ∧
    (List.zip f.statements g.statements).all fun (s, t) => s.matches_ t

/-- Structural identity of packages. -/
def Pkg.matches_ (p q : Pkg) : Bool :=
  p.name = q.name ∧ p.functions.length = q.functions.length ∧
    (List.zip p.functions q.functions).all fun (f, g) => f.matches_ g

/-- Expected result of a successful statement merge: offsets of the
receiver, counters summed. -/
def mergedStmt (s t : Stmt) : Stmt :=
  { s with reached := s.reached + t.reached }

/-- Expected result of a successful function merge. -/
def mergedFn (f g : Fn) : Fn :=
  { f with entered := f.entered + g.entered,
           left := f.left + g.left,
           statements := ((List.zip f.statements g.statements).map
             fun (s, t) => mergedStmt s t) }

/-- Expected result of a successful package merge. -/
def mergedPkg (p q : Pkg) : Pkg :=
  { p with functions := ((List.zip p.functions q.functions).map
      fun (f, g) => mergedFn f g) }

theorem accStmts_ok (ss ts : List Stmt)
    (hlen : ss.length = ts.length)
    (h : (List.zip ss ts).all (fun (s, t) => s.matches_ t) = true) :
    accStmts ss ts =
      ((List.zip ss ts).map fun (s, t) => mergedStmt s t, none) := by
  induction ss generalizing ts with
  | nil =>
    cases ts with
    | nil => simp [accStmts]
    | cons t ts => simp at hlen
  | cons s ss ih =>
    cases ts with
    | nil => simp at hlen
    | cons t ts =>
      simp only [List.zip_cons_cons, List.all_cons, Bool.and_eq_true] at h
      obtain ⟨hst, hrest⟩ := h
      simp only [Stmt.matches_, decide_eq_true_eq] at hst
      have : Stmt.accumulate s t = (mergedStmt s t, none) := by
        simp [Stmt.accumulate, hst.1, hst.2, mergedStmt]
      simp only [accStmts, this]
      rw [ih ts (by simpa using hlen) hrest]
      simp

theorem accStmts_err (ss ts : List Stmt)
    (hlen : ss.length = ts.length)
    (h : (List.zip ss ts).all (fun (s, t) => s.matches_ t) = false) :
    (accStmts ss ts).2.isSome = true := by
  induction ss generalizing ts with
  | nil =>
    cases ts with
    | nil => simp [List.zip] at h
    | cons t ts => simp at hlen
  | cons s ss ih =>
    cases ts with
    | nil => simp at hlen
    | cons t ts =>
      simp only [List.zip_cons_cons, List.all_cons, Bool.and_eq_false_iff] at h
      by_cases hst : s.matches_ t = true
      · have herr : (List.zip ss ts).all (fun (s, t) => s.matches_ t) = false := by
          rcases h with h | h
          · rw [hst] at h; exact absurd h (by simp)
          · exact h
        simp only [Stmt.matches_, decide_eq_true_eq] at hst
        have hacc : Stmt.accumulate s t = (mergedStmt s t, none) := by
          simp [Stmt.accumulate, hst.1, hst.2, mergedStmt]
        simp only [accStmts, hacc]
        have := ih ts (by simpa using hlen) herr
        rcases hr : accStmts ss ts with ⟨rest, e?⟩
        rw [hr] at this
        cases e? with
        | none => simp at this
        | some e => simp
      · simp only [Stmt.matches_, decide_eq_true_eq] at hst
        have hc : s.start ≠ t.start ∨ s.end_ ≠ t.end_ := by tauto
        have : Stmt.accumulate s t = (s, some "Source ranges do not match") := by
          simp only [Stmt.accumulate]
          rw [if_pos hc]
        simp [accStmts, this]

theorem fn_accumulate_ok (f g : Fn) (h : f.matches_ g = true) :
    f.accumulate g = (mergedFn f g, none) := by
  simp only [Fn.matches_, decide_eq_true_eq] at h
  obtain ⟨h1, h2, h3, h4, h5, h6⟩ := h
  simp only [Fn.accumulate, h1, h2, h3, h4, h5]
  simp [accStmts_ok f.statements g.statements h5 h6, mergedFn]
  exact ⟨h1.symm, h2.symm, h3.symm, h4.symm⟩

theorem fn_accumulate_err (f g : Fn) (h : f.matches_ g = false) :
    (f.accumulate g).2.isSome = true := by
  simp only [Fn.matches_, decide_eq_false_iff_not] at h
  by_cases h1 : f.name = g.name
  case neg =>
    simp only [Fn.accumulate]; rw [if_pos h1]; simp
  by_cases h2 : f.file = g.file
  case neg =>
    simp only [Fn.accumulate]
    rw [if_neg (not_not_intro h1), if_pos h2]; simp
  by_cases h3 : f.start = g.start
  case neg =>
    simp only [Fn.accumulate]
    rw [if_neg (not_not_intro h1), if_neg (not_not_intro h2),
      if_pos (Or.inl h3)]
    simp
  by_cases h4 : f.end_ = g.end_
  case neg =>
    simp only [Fn.accumulate]
    rw [if_neg (not_not_intro h1), if_neg (not_not_intro h2),
      if_pos (Or.inr h4)]
    simp
  by_cases h5 : f.statements.length = g.statements.length
  case neg =>
    simp only [Fn.accumulate]
    rw [if_neg (not_not_intro h1), if_neg (not_not_intro h2),
      if_neg (by rintro (hc | hc); exact hc h3; exact hc h4), if_pos h5]
    simp
  cases hall : (List.zip f.statements g.statements).all
      (fun (s, t) => s.matches_ t) with
  | true => exact absurd ⟨h1, h2, h3, h4, h5, hall⟩ h
  | false =>
    simp only [Fn.accumulate]
    rw [if_neg (not_not_intro h1), if_neg (not_not_intro h2),
      if_neg (by rintro (hc | hc); exact hc h3; exact hc h4),
      if_neg (not_not_intro h5)]
    have herr := accStmts_err f.statements g.statements h5 hall
    rcases hr : accStmts f.statements g.statements with ⟨rest, e?⟩
    rw [hr] at herr
    simpa using herr

theorem accFns_ok (fs gs : List Fn)
    (hlen : fs.length = gs.length)
    (h : (List.zip fs gs).all (fun (f, g) => f.matches_ g) = true) :
    accFns fs gs = ((List.zip fs gs).map fun (f, g) => mergedFn f g, none) := by
  induction fs generalizing gs with
  | nil =>
    cases gs with
    | nil => simp [accFns]
    | cons g gs => simp at hlen
  | cons f fs ih =>
    cases gs with
    | nil => simp at hlen
    | cons g gs =>
      simp only [List.zip_cons_cons, List.all_cons, Bool.and_eq_true] at h
      obtain ⟨hfg, hrest⟩ := h
      simp only [accFns, fn_accumulate_ok f g hfg]
      rw [ih gs (by simpa using hlen) hrest]
      simp

theorem accFns_err (fs gs : List Fn)
    (hlen : fs.length = gs.length)
    (h : (List.zip fs gs).all (fun (f, g) => f.matches_ g) = false) :
    (accFns fs gs).2.isSome = true := by
  induction fs generalizing gs with
  | nil =>
    cases gs with
    | nil => simp [List.zip] at h
    | cons g gs => simp at hlen
  | cons f fs ih =>
    cases gs with
    | nil => simp at hlen
    | cons g gs =>
      simp only [List.zip_cons_cons, List.all_cons, Bool.and_eq_false_iff] at h
      by_cases hfg : f.matches_ g = true
      · have herr : (List.zip fs gs).all (fun (f, g) => f.matches_ g) = false := by
          rcases h with h | h
          · rw [hfg] at h; exact absurd h (by simp)
          · exact h
        simp only [accFns, fn_accumulate_ok f g hfg]
        have := ih gs (by simpa using hlen) herr
        rcases hr : accFns fs gs with ⟨rest, e?⟩
        rw [hr] at this
        cases e? with
        | none => simp at this
        | some e => simp
      · have hfg' : f.matches_ g = false := by
          cases hb : f.matches_ g
          · rfl
          · exact absurd hb hfg
        have := fn_accumulate_err f g hfg'
        rcases hr : Fn.accumulate f g with ⟨f', e?⟩
        rw [hr] at this
        cases e? with
        | none => simp at this
        | some e => simp [accFns, hr]

theorem pkg_accumulate_ok (p q : Pkg) (h : p.matches_ q = true) :
    p.accumulate q = (mergedPkg p q, none) := by
  simp only [Pkg.matches_, decide_eq_true_eq] at h
  obtain ⟨h1, h2, h3⟩ := h
  simp only [Pkg.accumulate, h1, h2]
  simp [accFns_ok p.functions q.functions h2 h3, mergedPkg]
  exact h1.symm

theorem pkg_accumulate_err (p q : Pkg) (h : p.matches_ q = false) :
    (p.accumulate q).2.isSome = true := by
  simp only [Pkg.matches_, decide_eq_false_iff_not] at h
  by_cases h1 : p.name = q.name
  case neg =>
    simp only [Pkg.accumulate]; rw [if_pos h1]; simp
  by_cases h2 : p.functions.length = q.functions.length
  case neg =>
    simp only [Pkg.accumulate]
    rw [if_neg (not_not_intro h1), if_pos h2]; simp
  cases hall : (List.zip p.functions q.functions).all
      (fun (f, g) => f.matches_ g) with
  | true => exact absurd ⟨h1, h2, hall⟩ h
  | false =>
    simp only [Pkg.accumulate]
    rw [if_neg (not_not_intro h1), if_neg (not_not_intro h2)]
    have herr := accFns_err p.functions q.functions h2 hall
    rcases hr : accFns p.functions q.functions with ⟨rest, e?⟩
    rw [hr] at herr
    simpa using herr

theorem zip_self_eq_map {α : Type} (l : List α) :
    List.zip l l = l.map fun x => (x, x) := by
  induction l with
  | nil => rfl
  | cons x xs ih => simp [List.zip_cons_cons, ih]

theorem stmt_matches_refl (s : Stmt) : s.matches_ s = true := by
  simp [Stmt.matches_]

theorem fn_matches_refl (f : Fn) : f.matches_ f = true := by
  simp [Fn.matches_, zip_self_eq_map, List.all_map]
  intro s _
  simp [Stmt.matches_]

theorem pkg_matches_refl (p : Pkg) : p.matches_ p = true := by
  simp [Pkg.matches_, zip_self_eq_map, List.all_map]
  intro f _
  exact fn_matches_refl f

theorem stmt_accumulate_ok (s t : Stmt) (h : s.matches_ t = true) :
    s.accumulate t = (mergedStmt s t, none) := by
  simp only [Stmt.matches_, decide_eq_true_eq] at h
  simp [Stmt.accumulate, h.1, h.2, mergedStmt]

theorem stmt_accumulate_err (s t : Stmt) (h : s.matches_ t = false) :
    (s.accumulate t).2.isSome = true := by
  simp only [Stmt.matches_, decide_eq_false_iff_not] at h
  have hc : s.start ≠ t.start ∨ s.end_ ≠ t.end_ := by tauto
  simp only [Stmt.accumulate]
  rw [if_pos hc]
  simp

theorem stmt_accumulate_self (s : Stmt) :
    s.accumulate s = ({ s with reached := 2 * s.reached }, none) := by
  rw [stmt_accumulate_ok s s (stmt_matches_refl s)]
  simp [mergedStmt, two_mul]

theorem fn_accumulate_self (f : Fn) :
    f.accumulate f =
      ({ f with
          entered := 2 * f.entered, left := 2 * f.left,
          statements := (f.statements.map
            fun s => { s with reached := 2 * s.reached }) }, none) := by
  rw [fn_accumulate_ok f f (fn_matches_refl f)]
  simp [mergedFn, zip_self_eq_map, List.map_map, Function.comp,
    mergedStmt, two_mul]

theorem pkg_accumulate_self (p : Pkg) :
    p.accumulate p =
      ({ p with
          functions := (p.functions.map
            fun f =>
              { f with
                  entered := 2 * f.entered, left := 2 * f.left,
                  statements := (f.statements.map
                    fun s => { s with reached := 2 * s.reached }) }) },
        none) := by
  rw [pkg_accumulate_ok p p (pkg_matches_refl p)]
  simp [mergedPkg, zip_self_eq_map, List.map_map, Function.comp,
    mergedFn, mergedStmt, two_mul]

/-- **C2** — for every pair of same-kind entities (Statement, Function,
Package), `Accumulate` succeeds (returns no error) if and only if all
structural fields match and every child collection has equal length,
recursively; on success each leaf counter of the receiver becomes the sum
of the two inputs' counters, so merging an entity with an identical copy
of itself doubles every `Entered`, `Left` and `Reached` count while
leaving structural fields unchanged. -/
theorem accumulate_succeeds_iff_structural_match :
    (∀ s t : Stmt, ((s.accumulate t).2 = none ↔ s.matches_ t = true) ∧
      (s.matches_ t = true → s.accumulate t = (mergedStmt s t, none))) ∧
    (∀ f g : Fn, ((f.accumulate g).2 = none ↔ f.matches_ g = true) ∧
      (f.matches_ g = true → f.accumulate g = (mergedFn f g, none))) ∧
    (∀ p q : Pkg, ((p.accumulate q).2 = none ↔ p.matches_ q = true) ∧
      (p.matches_ q = true → p.accumulate q = (mergedPkg p q, none))) ∧
    (∀ s : Stmt, s.accumulate s =
      ({ s with reached := 2 * s.reached }, none)) ∧
    (∀ f : Fn, f.accumulate f =
      ({ f with
          entered := 2 * f.entered, left := 2 * f.left,
          statements := (f.statements.map
            fun s => { s with reached := 2 * s.reached }) }, none)) ∧
    (∀ p : Pkg, p.accumulate p =
      ({ p with
          functions := (p.functions.map
            fun f =>
              { f with
                  entered := 2 * f.entered, left := 2 * f.left,
                  statements := (f.statements.map
                    fun s => { s with reached := 2 * s.reached }) }) },
        none)) := by
  refine ⟨fun s t => ⟨?_, stmt_accumulate_ok s t⟩,
    fun f g => ⟨?_, fn_accumulate_ok f g⟩,
    fun p q => ⟨?_, pkg_accumulate_ok p q⟩,
    stmt_accumulate_self, fn_accumulate_self, pkg_accumulate_self⟩
  · cases hb : s.matches_ t with
    | true => simp [stmt_accumulate_ok s t hb]
    | false =>
      have := stmt_accumulate_err s t hb
      simp only [Option.isSome_iff_ne_none] at this
      simp [this]
  · cases hb : f.matches_ g with
    | true => simp [fn_accumulate_ok f g hb]
    | false =>
      have := fn_accumulate_err f g hb
      simp only [Option.isSome_iff_ne_none] at this
      simp [this]
  · cases hb : p.matches_ q with
    | true => simp [pkg_accumulate_ok p q hb]
    | false =>
      have := pkg_accumulate_err p q hb
      simp only [Option.isSome_iff_ne_none] at this
      simp [this]

/-- Witness for C2 at concrete inputs: a self-merge of a one-function,
one-statement package succeeds and doubles the counters, and a merge over
mismatching statement ranges is rejected. -/
theorem accumulate_succeeds_iff_structural_match_witness :
    Pkg.accumulate ⟨"p1", [⟨"f1", "file.go", 0, 1, [⟨0, 1, 3⟩], 4, 5⟩]⟩
        ⟨"p1", [⟨"f1", "file.go", 0, 1, [⟨0, 1, 3⟩], 4, 5⟩]⟩ =
      (⟨"p1", [⟨"f1", "file.go", 0, 1, [⟨0, 1, 6⟩], 8, 10⟩]⟩, none) ∧
    (Stmt.accumulate ⟨0, 1, 0⟩ ⟨2, 3, 0⟩).2 ≠ none := by
  constructor
  · have h := accumulate_succeeds_iff_structural_match.2.2.2.2.2
      ⟨"p1", [⟨"f1", "file.go", 0, 1, [⟨0, 1, 3⟩], 4, 5⟩]⟩
    rw [h]
    decide
  · have h := (accumulate_succeeds_iff_structural_match.1 ⟨0, 1, 0⟩ ⟨2, 3, 0⟩).1
    intro hc
    have := h.mp hc
    simp [Stmt.matches_] at this

/-- Counterexample to **C1** as stated: `Package.Accumulate` can return an
error while having already mutated the receiver — the function counters
are summed before the statement ranges are validated. -/
theorem merge_atomicity_counterexample :
    ((Pkg.accumulate ⟨"p1", [⟨"f1", "file.go", 0, 1, [⟨0, 1, 0⟩], 0, 0⟩]⟩
        ⟨"p1", [⟨"f1", "file.go", 0, 1, [⟨2, 3, 0⟩], 5, 7⟩]⟩).2.isSome = true) ∧
    (Pkg.accumulate ⟨"p1", [⟨"f1", "file.go", 0, 1, [⟨0, 1, 0⟩], 0, 0⟩]⟩
        ⟨"p1", [⟨"f1", "file.go", 0, 1, [⟨2, 3, 0⟩], 5, 7⟩]⟩).1 ≠
      ⟨"p1", [⟨"f1", "file.go", 0, 1, [⟨0, 1, 0⟩], 0, 0⟩]⟩ := by
  decide

/-- **C1 (amended)** — on failure the argument is never mutated (the
source never writes to it), and validation of an entity's *own*
structural fields always precedes mutation of that entity's own counters:
`Statement.Accumulate` is fully atomic, and `Function.Accumulate` /
`Package.Accumulate` leave the receiver unchanged whenever one of the
receiver's own checks (name, file, range, child count) fails.  However, a
mismatch inside a child leaves the receiver partially mutated (see the
counterexample). -/
theorem merge_validation_before_own_mutation :
    (∀ s t : Stmt, (s.accumulate t).2.isSome = true → (s.accumulate t).1 = s) ∧
    (∀ f g : Fn,
      f.name ≠ g.name ∨ f.file ≠ g.file ∨ f.start ≠ g.start ∨
        f.end_ ≠ g.end_ ∨ f.statements.length ≠ g.statements.length →
      (f.accumulate g).1 = f ∧ (f.accumulate g).2.isSome = true) ∧
    (∀ p q : Pkg, p.name ≠ q.name ∨ p.functions.length ≠ q.functions.length →
      (p.accumulate q).1 = p ∧ (p.accumulate q).2.isSome = true) := by
  refine ⟨fun s t h => ?_, fun f g h => ?_, fun p q h => ?_⟩
  · simp only [Stmt.accumulate] at h ⊢
    by_cases hc : s.start ≠ t.start ∨ s.end_ ≠ t.end_
    · rw [if_pos hc]
    · rw [if_neg hc] at h
      simp at h
  · simp only [Fn.accumulate]
    by_cases c1 : f.name = g.name
    case neg => rw [if_pos c1]; simp
    by_cases c2 : f.file = g.file
    case neg => rw [if_neg (not_not_intro c1), if_pos c2]; simp
    by_cases c3 : f.start = g.start
    case neg =>
      rw [if_neg (not_not_intro c1), if_neg (not_not_intro c2),
        if_pos (Or.inl c3)]
      simp
    by_cases c4 : f.end_ = g.end_
    case neg =>
      rw [if_neg (not_not_intro c1), if_neg (not_not_intro c2),
        if_pos (Or.inr c4)]
      simp
    by_cases c5 : f.statements.length = g.statements.length
    case neg =>
      rw [if_neg (not_not_intro c1), if_neg (not_not_intro c2),
        if_neg (by rintro (hc | hc); exact hc c3; exact hc c4), if_pos c5]
      simp
    rcases h with h | h | h | h | h <;> contradiction
  · simp only [Pkg.accumulate]
    by_cases c1 : p.name = q.name
    case neg => rw [if_pos c1]; simp
    by_cases c2 : p.functions.length = q.functions.length
    case neg => rw [if_neg (not_not_intro c1), if_pos c2]; simp
    rcases h with h | h <;> contradiction

/-- Witness for the amended C1 at concrete inputs. -/
theorem merge_validation_before_own_mutation_witness :
    ((Stmt.accumulate ⟨0, 1, 3⟩ ⟨2, 3, 4⟩).1 = ⟨0, 1, 3⟩) ∧
    ((Fn.accumulate ⟨"f1", "a.go", 0, 1, [], 3, 4⟩
        ⟨"f2", "a.go", 0, 1, [], 5, 6⟩).1 = ⟨"f1", "a.go", 0, 1, [], 3, 4⟩) ∧
    ((Pkg.accumulate ⟨"p1", []⟩ ⟨"p2", []⟩).1 = ⟨"p1", []⟩) := by
  refine ⟨merge_validation_before_own_mutation.1 _ _ (by decide),
    (merge_validation_before_own_mutation.2.1 ⟨"f1", "a.go", 0, 1, [], 3, 4⟩
      ⟨"f2", "a.go", 0, 1, [], 5, 6⟩ (Or.inl (by decide))).1,
    (merge_validation_before_own_mutation.2.2 ⟨"p1", []⟩ ⟨"p2", []⟩
      (Or.inl (by decide))).1⟩

end Gocov

namespace Convert

/-!
Embedding of the profile-block attribution loop of
`converter.convertProfile` / `converter.convertPackage` (the two copies
are identical).  Blocks come from the external profiler
(`cover.ProfileBlock`), statements from the extent discoverer
(`StmtExtent`); both carry line/column positions.
-/

/-- A profiler coverage block: line/column range plus hit count. -/
structure Block where
  startLine : Int
  startCol : Int
  endLine : Int
  endCol : Int
  count : Int
deriving DecidableEq, Repr

/-- The line/column extent of one statement (`StmtExtent`). -/
structure SExt where
  startLine : Int
  startCol : Int
  endLine : Int
  endCol : Int
deriving DecidableEq, Repr

/-- The "past the end of the statement" test:
`b.StartLine > s.endLine || (b.StartLine == s.endLine && b.StartCol >= s.endCol)`. -/
def pastEnd (b : Block) (s : SExt) : Bool :=
  b.startLine > s.endLine ∨ (b.startLine = s.endLine ∧ b.startCol ≥ s.endCol)

/-- The "before the beginning of the statement" test:
`b.EndLine < s.startLine || (b.EndLine == s.startLine && b.EndCol <= s.startCol)`. -/
def beforeStart (b : Block) (s : SExt) : Bool :=
  b.endLine < s.startLine ∨ (b.endLine = s.startLine ∧ b.endCol ≤ s.startCol)

/-- Result of the inner block scan for one statement: the loop either
breaks past-the-end (retaining the block suffix for the next statement),
attributes the first overlapping block's count, or exhausts the list. -/
inductive ScanRes where
  | pastEnd (rest : List Block)
  | hit (count : Int)
  | exhausted
deriving DecidableEq, Repr

/-- The inner loop of `convertProfile` over the remaining blocks. -/
def scanFrom : List Block → SExt → ScanRes
  | [], _ => .exhausted
  | b :: bs, s =>
    if pastEnd b s then .pastEnd (b :: bs)
    else if beforeStart b s then scanFrom bs s
    else .hit b.count

/-- The outer statement loop of `convertProfile`: each statement's
`Reached` is incremented by the count of the first overlapping block and
the scan for that statement stops; the block slice advances only on the
past-the-end break (`blocks = blocks[i:]`). -/
def convertLoop : List (SExt × Int) → List Block → List (SExt × Int)
  | [], _ => []
  | (s, r) :: ss, blocks =>
    match scanFrom blocks s with
    | .pastEnd rest => (s, r) :: convertLoop ss rest
    | .hit c => (s, r + c) :: convertLoop ss blocks
    | .exhausted => (s, r) :: convertLoop ss blocks

theorem scanFrom_skip (pre l : List Block) (s : SExt)
    (hpre : ∀ x ∈ pre, pastEnd x s = false ∧ beforeStart x s = true) :
    scanFrom (pre ++ l) s = scanFrom l s := by
  induction pre with
  | nil => rfl
  | cons b bs ih =>
    have hb := hpre b (List.mem_cons_self b bs)
    simp only [List.cons_append, scanFrom, hb.1, hb.2]
    simp only [Bool.false_eq_true, if_false, if_true]
    exact ih fun x hx => hpre x (List.mem_cons_of_mem b hx)

/-- **C5** — in profile-block attribution a statement's reached count is
taken from the first overlapping block only and the scan stops there:
blocks preceding the first overlapping block are skipped, later
overlapping blocks are never added. -/
theorem reached_from_first_overlapping_block
    (blocks pre rest : List Block) (b : Block) (s : SExt) (r : Int)
    (hdecomp : blocks = pre ++ b :: rest)
    (hpre : ∀ x ∈ pre, pastEnd x s = false ∧ beforeStart x s = true)
    (hb1 : pastEnd b s = false) (hb2 : beforeStart b s = false) :
    convertLoop [(s, r)] blocks = [(s, r + b.count)] := by
  subst hdecomp
  have hscan : scanFrom (pre ++ b :: rest) s = .hit b.count := by
    rw [scanFrom_skip pre (b :: rest) s hpre]
    simp [scanFrom, hb1, hb2]
  simp [convertLoop, hscan]

/-- Witness for C5: the §8 scenario — one statement spanning lines 1–3,
blocks `(1,0)-(2,5)` count 3 and `(2,6)-(3,9)` count 1, both overlapping:
the result is 3, not the sum 4. -/
theorem reached_from_first_overlapping_block_witness :
    convertLoop [(⟨1, 1, 3, 10⟩, 0)]
      [⟨1, 0, 2, 5, 3⟩, ⟨2, 6, 3, 9, 1⟩] = [(⟨1, 1, 3, 10⟩, 3)] := by
  have h := reached_from_first_overlapping_block
    [⟨1, 0, 2, 5, 3⟩, ⟨2, 6, 3, 9, 1⟩] [] [⟨2, 6, 3, 9, 1⟩]
    ⟨1, 0, 2, 5, 3⟩ ⟨1, 1, 3, 10⟩ 0 rfl (by simp) (by decide) (by decide)
  simpa using h

/-- **C10** — the overlap test is exclusive at both boundaries: a block
whose start position equals the statement's end position is past the
statement (the scan stops there and the block contributes nothing), and a
block whose end position equals the statement's start position is before
the statement (it is skipped). -/
theorem touching_blocks_do_not_overlap :
    (∀ (b : Block) (bs : List Block) (s : SExt) (r : Int),
      b.startLine = s.endLine → b.startCol = s.endCol →
      scanFrom (b :: bs) s = .pastEnd (b :: bs) ∧
        convertLoop [(s, r)] (b :: bs) = [(s, r)]) ∧
    (∀ (b : Block) (bs : List Block) (s : SExt),
      b.endLine = s.startLine → b.endCol = s.startCol →
      pastEnd b s = false → scanFrom (b :: bs) s = scanFrom bs s) := by
  constructor
  · intro b bs s r h1 h2
    have hp : pastEnd b s = true := by
      simp [pastEnd, h1, h2]
    constructor
    · simp [scanFrom, hp]
    · simp [convertLoop, scanFrom, hp]
  · intro b bs s h1 h2 hp
    have hb : beforeStart b s = true := by
      simp [beforeStart, h1, h2]
    simp [scanFrom, hp, hb]

/-- Witness for C10 at concrete inputs: a block starting exactly at the
statement's end stops the scan with no contribution; a block ending
exactly at the statement's start is skipped. -/
theorem touching_blocks_do_not_overlap_witness :
    convertLoop [(⟨1, 1, 3, 10⟩, 0)] [⟨3, 10, 4, 2, 9⟩] = [(⟨1, 1, 3, 10⟩, 0)] ∧
    scanFrom [⟨0, 0, 1, 1, 9⟩] ⟨1, 1, 3, 10⟩ = scanFrom [] ⟨1, 1, 3, 10⟩ := by
  exact ⟨(touching_blocks_do_not_overlap.1 ⟨3, 10, 4, 2, 9⟩ [] ⟨1, 1, 3, 10⟩ 0
      rfl rfl).2,
    touching_blocks_do_not_overlap.2 ⟨0, 0, 1, 1, 9⟩ [] ⟨1, 1, 3, 10⟩
      rfl rfl (by decide)⟩

/-- Counterexample to **C6** as stated: shuffling the block list changes
the attributed counts.  With two blocks both overlapping one statement,
the two orders attribute 3 and 1 respectively; moreover a past-the-end
block placed first stops the scan entirely. -/
theorem block_permutation_counterexample :
    convertLoop [(⟨1, 1, 3, 10⟩, 0)]
        [⟨1, 0, 2, 5, 3⟩, ⟨2, 6, 3, 9, 1⟩] = [(⟨1, 1, 3, 10⟩, 3)] ∧
    convertLoop [(⟨1, 1, 3, 10⟩, 0)]
        [⟨2, 6, 3, 9, 1⟩, ⟨1, 0, 2, 5, 3⟩] = [(⟨1, 1, 3, 10⟩, 1)] := by
  decide

/-!
Semantic analysis of the scan, for the order-(in)dependence claim.
§4.5 assumes blocks and statements are each kept sorted by position and
that the profiler's blocks are disjoint, each statement lying in at most
one block.  Under exactly those preconditions the loop is characterised
below: every statement receives the total hit count of the blocks that
overlap it — a quantity that depends only on the block multiset.
-/

/-- Start-position order on blocks: `(startLine, startCol)`
lexicographically. -/
def blockLeStart (b c : Block) : Prop :=
  b.startLine < c.startLine ∨
    (b.startLine = c.startLine ∧ b.startCol ≤ c.startCol)

instance : DecidableRel blockLeStart := fun b c => by
  unfold blockLeStart
  exact inferInstance

/-- Start-position order on statements (paired with their counters). -/
def stmtLeStart (p q : SExt × Int) : Prop :=
  p.1.startLine < q.1.startLine ∨
    (p.1.startLine = q.1.startLine ∧ p.1.startCol ≤ q.1.startCol)

instance : DecidableRel stmtLeStart := fun p q => by
  unfold stmtLeStart
  exact inferInstance

/-- The code's overlap trichotomy: a block overlaps a statement when it
is neither past its end nor before its start. -/
def overlaps (b : Block) (s : SExt) : Bool :=
  !(pastEnd b s) && !(beforeStart b s)

/-- Total hit count of the blocks overlapping a statement — a function
of the block multiset only. -/
def overlapSum (s : SExt) (blocks : List Block) : Int :=
  ((blocks.filter fun b => overlaps b s).map Block.count).sum

theorem overlaps_false_of_before {b : Block} {s : SExt}
    (h : beforeStart b s = true) : overlaps b s = false := by
  simp [overlaps, h]

theorem overlaps_false_of_pastEnd {b : Block} {s : SExt}
    (h : pastEnd b s = true) : overlaps b s = false := by
  simp [overlaps, h]

/-- Being past a statement's end is upward closed in start position. -/
theorem pastEnd_mono {b c : Block} {s : SExt} (h : pastEnd b s = true)
    (hle : blockLeStart b c) : pastEnd c s = true := by
  simp only [pastEnd, decide_eq_true_eq] at h ⊢
  unfold blockLeStart at hle
  omega

/-- A block before one statement is before every later statement. -/
theorem beforeStart_mono {b : Block} {s t : SExt}
    (h : beforeStart b s = true)
    (hle : s.startLine < t.startLine ∨
      (s.startLine = t.startLine ∧ s.startCol ≤ t.startCol)) :
    beforeStart b t = true := by
  simp only [beforeStart, decide_eq_true_eq] at h ⊢
  omega

theorem scanFrom_exhausted {blocks : List Block} {s : SExt}
    (h : scanFrom blocks s = .exhausted) :
    ∀ b ∈ blocks, beforeStart b s = true := by
  induction blocks with
  | nil => intro b hb; cases hb
  | cons b0 bs ih =>
    intro b hb
    simp only [scanFrom] at h
    cases hp : pastEnd b0 s with
    | true => simp [hp] at h
    | false =>
      cases hbf : beforeStart b0 s with
      | true =>
        simp only [hp, hbf, Bool.false_eq_true, if_false, if_true] at h
        rcases List.mem_cons.mp hb with rfl | hb'
        · exact hbf
        · exact ih h b hb'
      | false => simp [hp, hbf] at h

theorem scanFrom_pastEnd_decomp {blocks rest : List Block} {s : SExt}
    (h : scanFrom blocks s = .pastEnd rest) :
    ∃ pre b0 tl, blocks = pre ++ rest ∧ rest = b0 :: tl ∧
      (∀ b ∈ pre, beforeStart b s = true) ∧ pastEnd b0 s = true := by
  induction blocks with
  | nil => simp [scanFrom] at h
  | cons b0 bs ih =>
    simp only [scanFrom] at h
    cases hp : pastEnd b0 s with
    | true =>
      simp only [hp, if_true] at h
      injection h with h'
      exact ⟨[], b0, bs, by simp [h'], h'.symm, by simp, hp⟩
    | false =>
      cases hbf : beforeStart b0 s with
      | true =>
        simp only [hp, hbf, Bool.false_eq_true, if_false, if_true] at h
        obtain ⟨pre, bb, tl, hdecomp, hrest, hpre, hpb⟩ := ih h
        refine ⟨b0 :: pre, bb, tl, by simp [hdecomp], hrest, ?_, hpb⟩
        intro x hx
        rcases List.mem_cons.mp hx with rfl | hx'
        · exact hbf
        · exact hpre x hx'
      | false => simp [hp, hbf] at h

theorem scanFrom_hit_decomp {blocks : List Block} {s : SExt} {c : Int}
    (h : scanFrom blocks s = .hit c) :
    ∃ pre b tl, blocks = pre ++ b :: tl ∧
      (∀ x ∈ pre, beforeStart x s = true) ∧ overlaps b s = true ∧
      c = b.count := by
  induction blocks with
  | nil => simp [scanFrom] at h
  | cons b0 bs ih =>
    simp only [scanFrom] at h
    cases hp : pastEnd b0 s with
    | true => simp [hp] at h
    | false =>
      cases hbf : beforeStart b0 s with
      | true =>
        simp only [hp, hbf, Bool.false_eq_true, if_false, if_true] at h
        obtain ⟨pre, b, tl, hdecomp, hpre, hov, hc⟩ := ih h
        refine ⟨b0 :: pre, b, tl, by simp [hdecomp], ?_, hov, hc⟩
        intro x hx
        rcases List.mem_cons.mp hx with rfl | hx'
        · exact hbf
        · exact hpre x hx'
      | false =>
        simp only [hp, hbf, Bool.false_eq_true, if_false] at h
        injection h with h'
        exact ⟨[], b0, bs, rfl, by simp, by simp [overlaps, hp, hbf], h'.symm⟩

/-- Characterisation of the attribution loop under the §4.5
preconditions: with blocks and statements each sorted by start position
and every statement overlapped by at most one block, each statement's
counter is incremented by exactly the total hit count of the blocks
overlapping it. -/
theorem convertLoop_spec (stmts : List (SExt × Int)) :
    ∀ blocks : List Block,
    List.Sorted blockLeStart blocks →
    List.Sorted stmtLeStart stmts →
    (∀ p ∈ stmts, (blocks.countP fun b => overlaps b p.1) ≤ 1) →
    convertLoop stmts blocks =
      stmts.map fun p => (p.1, p.2 + overlapSum p.1 blocks) := by
  induction stmts with
  | nil => intro blocks _ _ _; rfl
  | cons p ps ih =>
    intro blocks hb hs hone
    obtain ⟨s, r⟩ := p
    obtain ⟨hrel, hstail⟩ := List.sorted_cons.mp hs
    have honetail : ∀ q ∈ ps, (blocks.countP fun b => overlaps b q.1) ≤ 1 :=
      fun q hq => hone q (List.mem_cons_of_mem _ hq)
    cases hscan : scanFrom blocks s with
    | pastEnd rest =>
      obtain ⟨pre, b0, tl, hdecomp, hrest, hpre, hpe⟩ :=
        scanFrom_pastEnd_decomp hscan
      have hsubl : List.Sublist rest blocks := by
        rw [hdecomp]
        exact List.sublist_append_right pre rest
      have hbrest : List.Sorted blockLeStart rest := hb.sublist hsubl
      have hnoov : ∀ b ∈ blocks, overlaps b s = false := by
        intro b hbmem
        rw [hdecomp] at hbmem
        rcases List.mem_append.mp hbmem with hbmem | hbmem
        · exact overlaps_false_of_before (hpre b hbmem)
        · rw [hrest] at hbmem
          rcases List.mem_cons.mp hbmem with rfl | hbmem
          · exact overlaps_false_of_pastEnd hpe
          · have hsorted0 : List.Sorted blockLeStart (b0 :: tl) := by
              rw [← hrest]
              exact hbrest
            have hle := (List.sorted_cons.mp hsorted0).1 b hbmem
            exact overlaps_false_of_pastEnd (pastEnd_mono hpe hle)
      have hsum0 : overlapSum s blocks = 0 := by
        unfold overlapSum
        rw [List.filter_eq_nil_iff.mpr (by intro b hbmem; simp [hnoov b hbmem])]
        rfl
      have hsame : ∀ q ∈ ps, overlapSum q.1 rest = overlapSum q.1 blocks := by
        intro q hq
        have hq' := hrel q hq
        unfold stmtLeStart at hq'
        unfold overlapSum
        rw [hdecomp, List.filter_append]
        have : pre.filter (fun b => overlaps b q.1) = [] := by
          rw [List.filter_eq_nil_iff]
          intro b hbmem
          have hbef := beforeStart_mono (hpre b hbmem) hq'
          simp [overlaps_false_of_before hbef]
        rw [this, List.nil_append]
      have honerest : ∀ q ∈ ps, (rest.countP fun b => overlaps b q.1) ≤ 1 :=
        fun q hq => le_trans (hsubl.countP_le _) (honetail q hq)
      simp only [convertLoop, hscan, List.map_cons]
      congr 1
      · rw [hsum0]
        simp
      · rw [ih rest hbrest hstail honerest]
        apply List.map_congr_left
        intro q hq
        rw [hsame q hq]
    | hit c =>
      obtain ⟨pre, b, tl, hdecomp, hpre, hov, hc⟩ := scanFrom_hit_decomp hscan
      have hsum : overlapSum s blocks = b.count := by
        have hcount : (blocks.countP fun x => overlaps x s) ≤ 1 :=
          hone (s, r) (List.mem_cons_self _ _)
        rw [hdecomp, List.countP_append] at hcount
        rw [List.countP_cons_of_pos _ _ (by simpa using hov)] at hcount
        have htl0 : (tl.countP fun x => overlaps x s) = 0 := by omega
        have hpre0 : pre.filter (fun x => overlaps x s) = [] := by
          rw [List.filter_eq_nil_iff]
          intro x hx
          simp [overlaps_false_of_before (hpre x hx)]
        have htlnil : tl.filter (fun x => overlaps x s) = [] := by
          rw [List.filter_eq_nil_iff]
          exact List.countP_eq_zero.mp htl0
        unfold overlapSum
        rw [hdecomp, List.filter_append, hpre0, List.nil_append,
          List.filter_cons_of_pos (by simpa using hov), htlnil]
        simp
      simp only [convertLoop, hscan, List.map_cons]
      congr 1
      · rw [hsum, hc]
      · exact ih blocks hb hstail honetail
    | exhausted =>
      have hall := scanFrom_exhausted hscan
      have hsum0 : overlapSum s blocks = 0 := by
        unfold overlapSum
        rw [List.filter_eq_nil_iff.mpr
          (by intro b hbmem; simp [overlaps_false_of_before (hall b hbmem)])]
        rfl
      simp only [convertLoop, hscan, List.map_cons]
      congr 1
      · rw [hsum0]
        simp
      · exact ih blocks hb hstail honetail

/-- **C6 (amended)** — attribution is order-independent only under the
well-formedness preconditions §4.5 itself assumes: when blocks and
statements are each sorted by start position and every statement is
overlapped by at most one block, each statement receives exactly the
total hit count of the blocks overlapping it — a function of the block
multiset alone — so ingesting any two position-sorted permutations of
the block list (position-tied blocks included) yields identical reached
counts.  For arbitrary shuffles the property fails (see the
counterexample). -/
theorem block_attribution_sorted_perm_invariant
    (stmts : List (SExt × Int)) (blocks blocks' : List Block)
    (hperm : blocks.Perm blocks')
    (hsort : List.Sorted blockLeStart blocks)
    (hsort' : List.Sorted blockLeStart blocks')
    (hstmts : List.Sorted stmtLeStart stmts)
    (hone : ∀ p ∈ stmts, (blocks.countP fun b => overlaps b p.1) ≤ 1) :
    convertLoop stmts blocks = convertLoop stmts blocks' := by
  have hone' : ∀ p ∈ stmts, (blocks'.countP fun b => overlaps b p.1) ≤ 1 := by
    intro p hp
    rw [← hperm.countP_eq]
    exact hone p hp
  rw [convertLoop_spec stmts blocks hsort hstmts hone,
    convertLoop_spec stmts blocks' hsort' hstmts hone']
  apply List.map_congr_left
  intro p _
  have hsum : overlapSum p.1 blocks = overlapSum p.1 blocks' :=
    ((hperm.filter _).map _).sum_eq
  rw [hsum]

/-- Witness for the amended C6: two genuinely different position-sorted
orders of the same two position-tied blocks (one overlapping the
statement with count 3, one ending before it) attribute identically. -/
theorem block_attribution_sorted_perm_invariant_witness :
    convertLoop [(⟨1, 1, 3, 10⟩, 0)]
        [⟨1, 0, 2, 5, 3⟩, ⟨1, 0, 0, 0, 9⟩] =
      convertLoop [(⟨1, 1, 3, 10⟩, 0)]
        [⟨1, 0, 0, 0, 9⟩, ⟨1, 0, 2, 5, 3⟩] :=
  block_attribution_sorted_perm_invariant
    [(⟨1, 1, 3, 10⟩, 0)]
    [⟨1, 0, 2, 5, 3⟩, ⟨1, 0, 0, 0, 9⟩]
    [⟨1, 0, 0, 0, 9⟩, ⟨1, 0, 2, 5, 3⟩]
    (List.Perm.swap _ _ [])
    (by decide) (by decide) (by decide) (by decide)

end Convert

namespace Report

/-!
Embedding of `Report.AddPackage` (`report.go`) / `report.addPackage`
(the gocov command), which are identical.  Both call Go's `sort.Search`
with the predicate
`func(i int) bool { return r.packages[i].Name >= r.packages[i].Name }` —
note that the predicate compares an element's name with itself.
-/

/-- Go's `sort.Search` binary-search loop, with explicit fuel (the loop
runs at most `n` iterations since `j - i` shrinks every step; fuel `n`
is always sufficient). -/
def sortSearchLoop (f : Nat → Bool) : Nat → Nat → Nat → Nat
  | 0, i, _ => i
  | fuel + 1, i, j =>
    if i < j then
      let m := (i + j) / 2
      if f m then sortSearchLoop f fuel i m else sortSearchLoop f fuel (m + 1) j
    else i

/-- `sort.Search(n, f)`: smallest index with `f` true, by binary search. -/
def sortSearch (n : Nat) (f : Nat → Bool) : Nat :=
  sortSearchLoop f n 0 n

theorem sortSearchLoop_const_true (f : Nat → Bool) (hf : ∀ m, f m = true) :
    ∀ fuel i j, sortSearchLoop f fuel i j = i := by
  intro fuel
  induction fuel with
  | zero => intro i j; rfl
  | succ n ih =>
    intro i j
    simp only [sortSearchLoop, hf, if_true]
    split <;> simp [ih]

/-- The predicate `AddPackage` passes to `sort.Search`: it compares
`r.packages[i].Name` with itself. -/
def searchPred (r : List Gocov.Pkg) (i : Nat) : Bool :=
  (r.getD i ⟨"", []⟩).name ≥ (r.getD i ⟨"", []⟩).name

/-- `Report.AddPackage`: find the insertion index with `sort.Search`,
panic (`none`) if the package at that index has the same name, otherwise
insert there. -/
def addPackage (r : List Gocov.Pkg) (p : Gocov.Pkg) : Option (List Gocov.Pkg) :=
  let i := sortSearch r.length (searchPred r)
  if i < r.length ∧ (r.getD i ⟨"", []⟩).name = p.name then
    none
  else
    some (r.take i ++ p :: r.drop i)

/-- The tautological predicate makes `sort.Search` always return 0. -/
theorem addPackage_search_is_zero (r : List Gocov.Pkg) :
    sortSearch r.length (searchPred r) = 0 := by
  exact sortSearchLoop_const_true _ (fun m => by simp [searchPred]) _ 0 _

/-- With the tautological predicate, `AddPackage` degenerates to: panic
when the *first* entry has the same name, else prepend. -/
theorem addPackage_eq (r : List Gocov.Pkg) (p : Gocov.Pkg) :
    addPackage r p =
      if 0 < r.length ∧ (r.getD 0 ⟨"", []⟩).name = p.name then none
      else some (p :: r) := by
  simp only [addPackage, addPackage_search_is_zero, List.take_zero,
    List.drop_zero, List.nil_append]

/-- **C7** — the code misbehaves on its own intent: because the
`sort.Search` predicate compares `r.packages[i].Name` with itself it is
constantly true and the insertion index is always 0.  Adding packages
"a" then "b" yields the unsorted list `[b, a]`; a duplicate name is only
detected when the existing entry sits at index 0 — and then the code
panics rather than reporting a recoverable error — while a duplicate
anywhere else is silently inserted again. -/
theorem addPackage_failing_input :
    addPackage [] ⟨"a", []⟩ = some [⟨"a", []⟩] ∧
    addPackage [⟨"a", []⟩] ⟨"b", []⟩ = some [⟨"b", []⟩, ⟨"a", []⟩] ∧
    addPackage [⟨"b", []⟩, ⟨"a", []⟩] ⟨"a", []⟩ =
      some [⟨"a", []⟩, ⟨"b", []⟩, ⟨"a", []⟩] ∧
    addPackage [⟨"a", []⟩] ⟨"a", []⟩ = none := by
  refine ⟨?_, ?_, ?_, ?_⟩ <;> rw [addPackage_eq] <;> simp

end Report

namespace Visitor

/-!
Embedding of extent discovery: `FuncVisitor.Visit` together with
`StmtVisitor.VisitStmt` from the convert package.  `ast.Walk` calls
`Visit` in pre-order and, since `Visit` always returns the visitor,
descends into every child node — so a function literal nested inside a
function declaration (or another literal) is itself visited and gets its
own `FuncExtent`.  The statement visitor registers only the top-level
simple statements of a body to the current extent and never descends
into expressions, so a nested literal's statements belong to the
literal's own extent.
-/

/-- An `extent`: byte offsets plus line/column positions. -/
structure Ext where
  startOffset : Int
  startLine : Int
  startCol : Int
  endOffset : Int
  endLine : Int
  endCol : Int
deriving DecidableEq, Repr

mutual
/-- A simple statement: its extent plus the function literals appearing
in its expressions. -/
inductive GStmt where
  | simple (ext : Ext) (lits : List GLit)
/-- A function literal: its extent and body. -/
inductive GLit where
  | mk (ext : Ext) (body : List GStmt)
end

def GStmt.ext : GStmt → Ext
  | .simple e _ => e

def GStmt.lits : GStmt → List GLit
  | .simple _ ls => ls

def GLit.ext : GLit → Ext
  | .mk e _ => e

def GLit.body : GLit → List GStmt
  | .mk _ b => b

/-- A named function declaration. -/
structure GDecl where
  name : String
  ext : Ext
  body : List GStmt

/-- `FuncExtent`: a discovered function with its statement extents. -/
structure FuncExtent where
  name : String
  ext : Ext
  stmts : List Ext
deriving DecidableEq, Repr

/-- The synthetic name `fmt.Sprintf("@%d:%d", start.Line, start.Column)`
given to a function literal. -/
def synthName (e : Ext) : String :=
  "@" ++ toString e.startLine ++ ":" ++ toString e.startCol

/-- `StmtVisitor.VisitStmt` on a body: the extents of the top-level
simple statements (the visitor does not descend into expressions, so
literals' inner statements are not included). -/
def stmtExtents (body : List GStmt) : List Ext :=
  body.map GStmt.ext

mutual
/-- `ast.Walk` reaching a `FuncLit`: emit its own extent (synthetic
name, own statements), then keep walking its body. -/
def walkLit : GLit → List FuncExtent
  | .mk e body => ⟨synthName e, e, stmtExtents body⟩ :: walkStmts body
/-- `ast.Walk` descending through a statement list. -/
def walkStmts : List GStmt → List FuncExtent
  | [] => []
  | .simple _ lits :: rest => walkLits lits ++ walkStmts rest
/-- `ast.Walk` descending through the literals of one statement. -/
def walkLits : List GLit → List FuncExtent
  | [] => []
  | l :: ls => walkLit l ++ walkLits ls
end

/-- `ast.Walk` reaching a `FuncDecl`: emit its extent (declared name,
top-level statements), then descend into the body. -/
def walkDecl (d : GDecl) : List FuncExtent :=
  ⟨d.name, d.ext, stmtExtents d.body⟩ :: walkStmts d.body

/-- `findFuncs` over a parsed file (a list of declarations). -/
def findFuncs : List GDecl → List FuncExtent
  | [] => []
  | d :: ds => walkDecl d ++ findFuncs ds

/-- Counterexample to **C8** as stated: a function literal lexically
enclosed by an already-discovered function extent still becomes its own
`FuncExtent`, with synthetic name `@line:col`, and its statement is not
folded into the enclosing function's statement list. -/
theorem nested_literal_counterexample :
    findFuncs [⟨"f", ⟨0, 1, 1, 40, 5, 2⟩,
        [.simple ⟨10, 2, 1, 32, 2, 32⟩
          [.mk ⟨20, 2, 10, 30, 2, 30⟩ [.simple ⟨22, 2, 12, 28, 2, 28⟩ []]]]⟩] =
      [⟨"f", ⟨0, 1, 1, 40, 5, 2⟩, [⟨10, 2, 1, 32, 2, 32⟩]⟩,
       ⟨"@2:10", ⟨20, 2, 10, 30, 2, 30⟩, [⟨22, 2, 12, 28, 2, 28⟩]⟩] := by
  rfl

theorem mem_walkLits {l : GLit} {ls : List GLit} (h : l ∈ ls) :
    (⟨synthName l.ext, l.ext, stmtExtents l.body⟩ : FuncExtent) ∈
      walkLits ls := by
  induction ls with
  | nil => cases h
  | cons x xs ih =>
    rcases List.mem_cons.mp h with rfl | h'
    · cases l with
      | mk e b =>
        exact List.mem_append_left _ (List.mem_cons_self _ _)
    · exact List.mem_append_right _ (ih h')

theorem mem_walkStmts {l : GLit} {body : List GStmt} {s : GStmt}
    (hs : s ∈ body) (hl : l ∈ s.lits) :
    (⟨synthName l.ext, l.ext, stmtExtents l.body⟩ : FuncExtent) ∈
      walkStmts body := by
  induction body with
  | nil => cases hs
  | cons t rest ih =>
    rcases List.mem_cons.mp hs with rfl | hs'
    · cases s with
      | simple e ls =>
        exact List.mem_append_left _ (mem_walkLits hl)
    · cases t with
      | simple e ls =>
        exact List.mem_append_right _ (ih hs')

/-- **C8 (amended)** — every function literal appearing in a statement of
an enclosing function becomes its own `FuncExtent` with synthetic name
`@<line>:<col>`, carrying exactly its own top-level statement extents;
the enclosing declaration's extent keeps only its own top-level statement
extents (literals' statements are never folded into it). -/
theorem nested_literal_gets_own_extent
    (d : GDecl) (s : GStmt) (l : GLit)
    (hs : s ∈ d.body) (hl : l ∈ s.lits) :
    (⟨synthName l.ext, l.ext, stmtExtents l.body⟩ : FuncExtent) ∈
        findFuncs [d] ∧
    (findFuncs [d]).head? = some ⟨d.name, d.ext, stmtExtents d.body⟩ := by
  constructor
  · have hmem := mem_walkStmts hs hl
    simp only [findFuncs, walkDecl, List.append_nil]
    exact List.mem_cons_of_mem _ hmem
  · simp [findFuncs, walkDecl]

/-- Witness for the amended C8 at the counterexample input. -/
theorem nested_literal_gets_own_extent_witness :
    (⟨"@2:10", ⟨20, 2, 10, 30, 2, 30⟩, [⟨22, 2, 12, 28, 2, 28⟩]⟩ : FuncExtent) ∈
      findFuncs [⟨"f", ⟨0, 1, 1, 40, 5, 2⟩,
        [.simple ⟨10, 2, 1, 32, 2, 32⟩
          [.mk ⟨20, 2, 10, 30, 2, 30⟩ [.simple ⟨22, 2, 12, 28, 2, 28⟩ []]]]⟩] := by
  have h := (nested_literal_gets_own_extent
    ⟨"f", ⟨0, 1, 1, 40, 5, 2⟩,
      [.simple ⟨10, 2, 1, 32, 2, 32⟩
        [.mk ⟨20, 2, 10, 30, 2, 30⟩ [.simple ⟨22, 2, 12, 28, 2, 28⟩ []]]]⟩
    (.simple ⟨10, 2, 1, 32, 2, 32⟩
      [.mk ⟨20, 2, 10, 30, 2, 30⟩ [.simple ⟨22, 2, 12, 28, 2, 28⟩ []]])
    (.mk ⟨20, 2, 10, 30, 2, 30⟩ [.simple ⟨22, 2, 12, 28, 2, 28⟩ []])
    (List.mem_singleton.mpr rfl) (List.mem_singleton.mpr rfl)).1
  simpa [synthName, GLit.ext, GLit.body, stmtExtents, GStmt.ext] using h

end Visitor

namespace Wire

/-!
The textual wire protocol.  The Go side scans trace files with the
standard `go/scanner` (an external collaborator per §1 of the spec), so
the protocol is embedded at token level: a `Tok` is one scanner token,
with `str` carrying the unquoted string value and `intLit` the literal
digits.  The number formatting (`itoa` from the gocov package) and
parsing (`strconv.Atoi`, simplified to sign plus decimal digits) are
modelled on character lists.
-/

/-- `'0' + byte(d)` for a decimal digit. -/
def digitChar : Nat → Char
  | 0 => '0' | 1 => '1' | 2 => '2' | 3 => '3' | 4 => '4'
  | 5 => '5' | 6 => '6' | 7 => '7' | 8 => '8' | _ => '9'

/-- The digit-emitting loop of `itoa`, with fuel (the loop runs once per
digit, and a number `v` has at most `v + 1` digits). -/
def natCharsAux : Nat → Nat → List Char
  | 0, _ => []
  | fuel + 1, v =>
    if v < 10 then [digitChar v]
    else natCharsAux fuel (v / 10) ++ [digitChar (v % 10)]

/-- Decimal digits of `v`, most significant first. -/
def natChars (v : Nat) : List Char := natCharsAux (v + 1) v

/-- `itoa` restricted to naturals. -/
def natStr (v : Nat) : String := ⟨natChars v⟩

/-- `gocov.itoa`: minus sign for negatives, else the digit loop. -/
def itoa (v : Int) : String :=
  if v < 0 then "-" ++ natStr (-v).toNat else natStr v.toNat

/-- Digit test of `strconv.Atoi`. -/
def isDig (c : Char) : Bool := 48 ≤ c.toNat ∧ c.toNat ≤ 57

/-- Value of a digit character. -/
def digVal (c : Char) : Nat := c.toNat - 48

/-- The accumulating digit loop of `strconv.Atoi`. -/
def digitsValGo : Nat → List Char → Option Nat
  | acc, [] => some acc
  | acc, c :: cs =>
    if isDig c then digitsValGo (acc * 10 + digVal c) cs else none

/-- `strconv.Atoi` digit parsing: at least one digit required. -/
def digitsVal? : List Char → Option Nat
  | [] => none
  | c :: cs => digitsValGo 0 (c :: cs)

/-- `strconv.Atoi`: optional sign, then decimal digits. -/
def atoi? (s : String) : Option Int :=
  match s.data with
  | [] => none
  | c :: cs =>
    if c = '-' then (digitsVal? cs).map fun n => -(n : Int)
    else if c = '+' then (digitsVal? cs).map fun n => (n : Int)
    else (digitsVal? (c :: cs)).map fun n => (n : Int)

theorem digitChar_spec (d : Nat) (h : d < 10) :
    isDig (digitChar d) = true ∧ digVal (digitChar d) = d := by
  interval_cases d <;> exact ⟨by decide, by decide⟩

theorem digitsValGo_append (l₁ l₂ : List Char) (acc : Nat) :
    digitsValGo acc (l₁ ++ l₂) =
      match digitsValGo acc l₁ with
      | some a => digitsValGo a l₂
      | none => none := by
  induction l₁ generalizing acc with
  | nil => simp [digitsValGo]
  | cons c cs ih =>
    simp only [List.cons_append, List.append_eq, digitsValGo]
    by_cases hc : isDig c = true
    · rw [if_pos hc, if_pos hc, ih]
    · rw [if_neg hc, if_neg hc]

theorem natCharsAux_ne_nil (fuel v : Nat) (h : 0 < fuel) :
    natCharsAux fuel v ≠ [] := by
  cases fuel with
  | zero => omega
  | succ f =>
    simp only [natCharsAux]
    split <;> simp

theorem natCharsAux_val (fuel : Nat) :
    ∀ v acc, v < fuel →
      digitsValGo acc (natCharsAux fuel v) =
        some (acc * 10 ^ (natCharsAux fuel v).length + v) := by
  induction fuel with
  | zero => intro v acc h; omega
  | succ f ih =>
    intro v acc h
    by_cases hv : v < 10
    · simp only [natCharsAux, if_pos hv, digitsValGo,
        (digitChar_spec v hv).1, if_true, (digitChar_spec v hv).2]
      simp
    · have hrec : v / 10 < f := by omega
      simp only [natCharsAux, if_neg hv]
      rw [digitsValGo_append, ih (v / 10) acc hrec]
      have hd := digitChar_spec (v % 10) (Nat.mod_lt v (by omega))
      simp only [digitsValGo, hd.1, if_true, hd.2, List.length_append,
        List.length_singleton]
      congr 1
      rw [pow_succ, Nat.add_mul, Nat.add_assoc, Nat.div_add_mod', Nat.mul_assoc]

theorem digitsVal_natChars (v : Nat) : digitsVal? (natChars v) = some v := by
  have hne := natCharsAux_ne_nil (v + 1) v (by omega)
  have hval := natCharsAux_val (v + 1) v 0 (by omega)
  unfold natChars at *
  cases hl : natCharsAux (v + 1) v with
  | nil => exact absurd hl hne
  | cons c cs =>
    rw [hl] at hval
    simpa [digitsVal?] using hval

theorem natChars_all_digits (fuel v : Nat) :
    ∀ c ∈ natCharsAux fuel v, isDig c = true := by
  induction fuel generalizing v with
  | zero => intro c hc; cases hc
  | succ f ih =>
    intro c hc
    simp only [natCharsAux] at hc
    split at hc
    · next hv =>
      simp only [List.mem_singleton] at hc
      subst hc
      exact (digitChar_spec v hv).1
    · next hv =>
      rcases List.mem_append.mp hc with h | h
      · exact ih (v / 10) c h
      · simp only [List.mem_singleton] at h
        subst h
        exact (digitChar_spec (v % 10) (Nat.mod_lt v (by omega))).1

theorem atoi_natStr (v : Nat) : atoi? (natStr v) = some (v : Int) := by
  have hval := digitsVal_natChars v
  have hne := natCharsAux_ne_nil (v + 1) v (by omega)
  unfold natStr natChars at *
  cases hl : natCharsAux (v + 1) v with
  | nil => exact absurd hl hne
  | cons c cs =>
    have hdig : isDig c = true := by
      exact natChars_all_digits (v + 1) v c (by rw [hl]; exact List.mem_cons_self _ _)
    have hc1 : c ≠ '-' := by
      intro h; subst h; simp [isDig] at hdig
    have hc2 : c ≠ '+' := by
      intro h; subst h; simp [isDig] at hdig
    rw [hl] at hval
    simp [atoi?, if_neg hc1, if_neg hc2, hval]

theorem atoi_itoa (v : Int) (h : 0 ≤ v) : atoi? (itoa v) = some v := by
  unfold itoa
  rw [if_neg (by omega)]
  rw [atoi_natStr]
  congr 1
  exact Int.toNat_of_nonneg h

/-- One `go/scanner` token of the trace protocol. -/
inductive Tok where
  | ident (s : String)
  | str (s : String)
  | intLit (s : String)
  | lparen
  | rparen
  | comma
  | period
  | colon
  | semicolon
deriving DecidableEq, Repr

end Wire

namespace Registry

open Wire

/-!
Embedding of the coverage registry (`gocov.Context` and the
`RegisterPackage` / `RegisterFunction` / `RegisterStatement` / `Enter` /
`Leave` / `At` operations).  Go's pointer graph is modelled as an arena:
the context holds the ordered object table, packages and functions refer
to their children by uid.  The trace sink is modelled by returning the
tokens each operation would write through `Context.log`; the decoder
side ignores them (its context has no tracer), so the token output is
simply dropped there.
-/

/-- The data of one coverage object. -/
inductive ObjData where
  | pkg (name : String) (functions : List Nat)
  | fn (name file : String) (start end_ : Int) (statements : List Nat)
      (entered left : Int)
  | stmt (start end_ : Int) (reached : Int)
deriving DecidableEq, Repr

/-- One entry of `Context.Objects`: stored uid plus object data. -/
structure Obj where
  uid : Nat
  data : ObjData
deriving DecidableEq, Repr

/-- `gocov.Context`: ordered object table plus `TraceFlags`. -/
structure Ctx where
  objects : List Obj
  traceFlags : Nat
deriving DecidableEq, Repr

/-- The `TraceAll` flag constant. -/
def TraceAllFlag : Nat := 1

/-- `Context.traceAll()`. -/
def Ctx.traceAll (c : Ctx) : Bool :=
  c.traceFlags &&& TraceAllFlag == TraceAllFlag

/-- `Context.allocObject`: next uid is the last object's uid plus one,
or 0 for an empty table. -/
def Ctx.allocUid (c : Ctx) : Nat :=
  match c.objects.getLast? with
  | some o => o.uid + 1
  | none => 0

/-- Look up an object's data by uid in an object table. -/
def findData (l : List Obj) (uid : Nat) : Option ObjData :=
  (l.find? fun o => o.uid = uid).map Obj.data

/-- Replace the data of the object with the given uid. -/
def updateObjs (l : List Obj) (uid : Nat) (f : ObjData → ObjData) : List Obj :=
  l.map fun o => if o.uid = uid then { o with data := f o.data } else o

def Ctx.find? (c : Ctx) (uid : Nat) : Option ObjData :=
  findData c.objects uid

def Ctx.update (c : Ctx) (uid : Nat) (f : ObjData → ObjData) : Ctx :=
  { c with objects := updateObjs c.objects uid f }

/-- `Context.RegisterPackage`: allocate, append, return the new uid. -/
def Ctx.registerPackage (c : Ctx) (name : String) : Ctx × Nat :=
  let u := c.allocUid
  ({ c with objects := c.objects ++ [Obj.mk u (.pkg name [])] }, u)

/-- `Package.RegisterFunction`: allocate, append to the package's
function list and to the object table. -/
def Ctx.registerFunction (c : Ctx) (pkgUid : Nat) (name file : String)
    (startOffset endOffset : Int) : Ctx × Nat :=
  let u := c.allocUid
  let c1 := { c with objects :=
    c.objects ++ [Obj.mk u (.fn name file startOffset endOffset [] 0 0)] }
  (c1.update pkgUid fun d =>
    match d with
    | .pkg n fs => .pkg n (fs ++ [u])
    | d => d, u)

/-- `Function.RegisterStatement`. -/
def Ctx.registerStatement (c : Ctx) (fnUid : Nat)
    (startOffset endOffset : Int) : Ctx × Nat :=
  let u := c.allocUid
  let c1 := { c with objects :=
    c.objects ++ [Obj.mk u (.stmt startOffset endOffset 0)] }
  (c1.update fnUid fun d =>
    match d with
    | .fn n f s e ss en l => .fn n f s e (ss ++ [u]) en l
    | d => d, u)

/-- `Function.Enter`: increment `Entered`, returning the new value (the
source tests `atomic.AddInt64(&f.Entered, 1) == 1` for tracing). -/
def Ctx.enter (c : Ctx) (u : Nat) : Ctx × Int :=
  let v : Int :=
    match c.find? u with
    | some (.fn _ _ _ _ _ en _) => en + 1
    | _ => 0
  (c.update u fun d =>
    match d with
    | .fn n f s e ss en l => .fn n f s e ss (en + 1) l
    | d => d, v)

/-- `Function.Leave`. -/
def Ctx.leave (c : Ctx) (u : Nat) : Ctx × Int :=
  let v : Int :=
    match c.find? u with
    | some (.fn _ _ _ _ _ _ l) => l + 1
    | _ => 0
  (c.update u fun d =>
    match d with
    | .fn n f s e ss en l => .fn n f s e ss en (l + 1)
    | d => d, v)

/-- `Statement.At`. -/
def Ctx.at_ (c : Ctx) (u : Nat) : Ctx × Int :=
  let v : Int :=
    match c.find? u with
    | some (.stmt _ _ r) => r + 1
    | _ => 0
  (c.update u fun d =>
    match d with
    | .stmt s e r => .stmt s e (r + 1)
    | d => d, v)

/-- `object.String()`: the object reference `gocovObject<uid>`. -/
def refStr (u : Nat) : String := "gocovObject" ++ itoa (u : Int)

/-- Tokens of a `RegisterPackage("name"): gocovObjectN` line. -/
def encRegisterPackage (name : String) (u : Nat) : List Tok :=
  [.ident "RegisterPackage", .lparen, .str name, .rparen, .colon,
   .ident (refStr u), .semicolon]

/-- Tokens of a `gocovObjectP.RegisterFunction("n", "f", s, e): gocovObjectU` line. -/
def encRegisterFunction (pkgUid : Nat) (name file : String)
    (startOffset endOffset : Int) (u : Nat) : List Tok :=
  [.ident (refStr pkgUid), .period, .ident "RegisterFunction", .lparen,
   .str name, .comma, .str file, .comma, .intLit (itoa startOffset), .comma,
   .intLit (itoa endOffset), .rparen, .colon, .ident (refStr u), .semicolon]

/-- Tokens of a `gocovObjectF.RegisterStatement(s, e): gocovObjectU` line. -/
def encRegisterStatement (fnUid : Nat) (startOffset endOffset : Int)
    (u : Nat) : List Tok :=
  [.ident (refStr fnUid), .period, .ident "RegisterStatement", .lparen,
   .intLit (itoa startOffset), .comma, .intLit (itoa endOffset), .rparen,
   .colon, .ident (refStr u), .semicolon]

/-- Tokens of a `gocovObjectF.Enter()` line (the function's preallocated
`enterString`). -/
def encEnter (u : Nat) : List Tok :=
  [.ident (refStr u), .period, .ident "Enter", .lparen, .rparen, .semicolon]

/-- Tokens of a `gocovObjectF.Leave()` line. -/
def encLeave (u : Nat) : List Tok :=
  [.ident (refStr u), .period, .ident "Leave", .lparen, .rparen, .semicolon]

/-- Tokens of a `gocovObjectS.At()` line. -/
def encAt (u : Nat) : List Tok :=
  [.ident (refStr u), .period, .ident "At", .lparen, .rparen, .semicolon]

/-- One registry operation, as issued by an instrumented program holding
typed references (modelled by uids). -/
inductive Op where
  | registerPackage (name : String)
  | registerFunction (pkg : Nat) (name file : String)
      (startOffset endOffset : Int)
  | registerStatement (fn : Nat) (startOffset endOffset : Int)
  | enter (fn : Nat)
  | leave (fn : Nat)
  | at_ (stmt : Nat)
deriving DecidableEq, Repr

/-- Execute one operation: new state plus the tokens written to the
trace sink.  Registrations always trace; `Enter`/`Leave`/`At` trace on
the first visit, or always under `TraceAll`.  Operations whose uid does
not refer to an object of the right kind (impossible for a program
holding typed pointers, see `wfOp`) leave the state unchanged. -/
def execOp (c : Ctx) : Op → Ctx × List Tok
  | .registerPackage name =>
    let r := c.registerPackage name
    (r.1, encRegisterPackage name r.2)
  | .registerFunction p name file s e =>
    match c.find? p with
    | some (.pkg _ _) =>
      let r := c.registerFunction p name file s e
      (r.1, encRegisterFunction p name file s e r.2)
    | _ => (c, [])
  | .registerStatement f s e =>
    match c.find? f with
    | some (.fn _ _ _ _ _ _ _) =>
      let r := c.registerStatement f s e
      (r.1, encRegisterStatement f s e r.2)
    | _ => (c, [])
  | .enter f =>
    match c.find? f with
    | some (.fn _ _ _ _ _ _ _) =>
      let r := c.enter f
      (r.1, if r.2 = 1 ∨ c.traceAll then encEnter f else [])
    | _ => (c, [])
  | .leave f =>
    match c.find? f with
    | some (.fn _ _ _ _ _ _ _) =>
      let r := c.leave f
      (r.1, if r.2 = 1 ∨ c.traceAll then encLeave f else [])
    | _ => (c, [])
  | .at_ s =>
    match c.find? s with
    | some (.stmt _ _ _) =>
      let r := c.at_ s
      (r.1, if r.2 = 1 ∨ c.traceAll then encAt s else [])
    | _ => (c, [])

/-- Execute a sequence of operations, concatenating the trace output. -/
def runOps (c : Ctx) : List Op → Ctx × List Tok
  | [] => (c, [])
  | op :: ops =>
    let r := execOp c op
    let r2 := runOps r.1 ops
    (r2.1, r.2 ++ r2.2)

/-- The uid table invariant: uids are exactly `0, 1, …, n-1` in order. -/
def uidsDense (c : Ctx) : Prop :=
  c.objects.map Obj.uid = List.range c.objects.length

theorem allocUid_eq_length (c : Ctx) (h : uidsDense c) :
    c.allocUid = c.objects.length := by
  rcases List.eq_nil_or_concat c.objects with hnil | ⟨l, b, hcat⟩
  · simp [Ctx.allocUid, hnil]
  · rw [List.concat_eq_append] at hcat
    have h' := h
    unfold uidsDense at h'
    rw [hcat, List.map_append, List.length_append] at h'
    simp only [List.map_cons, List.map_nil, List.length_singleton] at h'
    rw [List.range_succ] at h'
    have hlen : (l.map Obj.uid).length = (List.range l.length).length := by
      simp
    have hinj := List.append_inj h' hlen
    have hb : b.uid = l.length := by
      have := hinj.2
      injection this
    simp [Ctx.allocUid, hcat, List.getLast?_concat, hb]

theorem uidsDense_append (c : Ctx) (d : ObjData) (h : uidsDense c) :
    (c.objects ++ [Obj.mk c.allocUid d]).map Obj.uid =
      List.range (c.objects ++ [Obj.mk c.allocUid d]).length := by
  rw [List.map_append, allocUid_eq_length c h]
  unfold uidsDense at h
  rw [h]
  simp [List.range_succ]

theorem uidsDense_update (l : List Obj) (uid : Nat) (f : ObjData → ObjData) :
    (updateObjs l uid f).map Obj.uid = l.map Obj.uid := by
  unfold updateObjs
  rw [List.map_map]
  apply List.map_congr_left
  intro o _
  by_cases h : o.uid = uid <;> simp [h]

theorem uidsDense_execOp (c : Ctx) (op : Op) (h : uidsDense c) :
    uidsDense (execOp c op).1 := by
  have hupd : ∀ (l : List Obj) (uid : Nat) (f : ObjData → ObjData),
      (updateObjs l uid f).length = l.length := by
    intro l uid f; simp [updateObjs]
  cases op with
  | registerPackage name =>
    exact uidsDense_append c _ h
  | registerFunction p name file s e =>
    simp only [execOp]
    cases hf : c.find? p with
    | none => exact h
    | some d =>
      cases d with
      | pkg n fs =>
        simp only [Ctx.registerFunction, Ctx.update]
        unfold uidsDense at *
        simp only [uidsDense_update, hupd]
        exact uidsDense_append c _ h
      | fn n f s e ss en l => exact h
      | stmt s e r => exact h
  | registerStatement fn s e =>
    simp only [execOp]
    cases hf : c.find? fn with
    | none => exact h
    | some d =>
      cases d with
      | fn n f s e ss en l =>
        simp only [Ctx.registerStatement, Ctx.update]
        unfold uidsDense at *
        simp only [uidsDense_update, hupd]
        exact uidsDense_append c _ h
      | pkg n fs => exact h
      | stmt s e r => exact h
  | enter fn =>
    simp only [execOp]
    cases hf : c.find? fn with
    | none => exact h
    | some d =>
      cases d with
      | fn n f s e ss en l =>
        simp only [Ctx.enter, Ctx.update]
        unfold uidsDense at *
        simp only [uidsDense_update, hupd]
        exact h
      | pkg n fs => exact h
      | stmt s e r => exact h
  | leave fn =>
    simp only [execOp]
    cases hf : c.find? fn with
    | none => exact h
    | some d =>
      cases d with
      | fn n f s e ss en l =>
        simp only [Ctx.leave, Ctx.update]
        unfold uidsDense at *
        simp only [uidsDense_update, hupd]
        exact h
      | pkg n fs => exact h
      | stmt s e r => exact h
  | at_ st =>
    simp only [execOp]
    cases hf : c.find? st with
    | none => exact h
    | some d =>
      cases d with
      | stmt s e r =>
        simp only [Ctx.at_, Ctx.update]
        unfold uidsDense at *
        simp only [uidsDense_update, hupd]
        exact h
      | pkg n fs => exact h
      | fn n f s e ss en l => exact h

/-- An operation is well formed in a state when its uid refers to an
object of the right kind — as guaranteed in Go by the caller holding a
typed pointer — and (for registrations) its byte offsets are
non-negative, as `token.Position` offsets always are. -/
def wfOp (c : Ctx) : Op → Bool
  | .registerPackage _ => true
  | .registerFunction p _ _ s e =>
    (match c.find? p with
     | some (.pkg _ _) => true
     | _ => false) && decide (0 ≤ s) && decide (0 ≤ e)
  | .registerStatement f s e =>
    (match c.find? f with
     | some (.fn _ _ _ _ _ _ _) => true
     | _ => false) && decide (0 ≤ s) && decide (0 ≤ e)
  | .enter f =>
    match c.find? f with
    | some (.fn _ _ _ _ _ _ _) => true
    | _ => false
  | .leave f =>
    match c.find? f with
    | some (.fn _ _ _ _ _ _ _) => true
    | _ => false
  | .at_ s =>
    match c.find? s with
    | some (.stmt _ _ _) => true
    | _ => false

/-- Well-formedness of an operation sequence, threading the state. -/
def wfFrom (c : Ctx) : List Op → Bool
  | [] => true
  | op :: ops => wfOp c op && wfFrom (execOp c op).1 ops

/-- The uids handed out for `RegisterPackage` calls, in order (the
decoder's `parser.packages` list contains exactly these). -/
def runPkgUids (c : Ctx) : List Op → List Nat
  | [] => []
  | op :: ops =>
    (match op with
     | .registerPackage _ => [c.allocUid]
     | _ => []) ++ runPkgUids (execOp c op).1 ops

/-- **C4** — for every fresh `Context` (any trace flags) and every
interleaving of operations, the uids stored in the object table are
exactly `0, 1, 2, …` in registration order: dense, strictly increasing,
never reused. -/
theorem uids_dense_in_registration_order (flags : Nat) (ops : List Op) :
    (runOps ⟨[], flags⟩ ops).1.objects.map Obj.uid =
      List.range (runOps ⟨[], flags⟩ ops).1.objects.length := by
  suffices h : ∀ (c : Ctx), uidsDense c → uidsDense (runOps c ops).1 by
    exact h ⟨[], flags⟩ (by simp [uidsDense])
  induction ops with
  | nil => intro c hc; exact hc
  | cons op ops ih =>
    intro c hc
    exact ih (execOp c op).1 (uidsDense_execOp c op hc)

end Registry

namespace Parser

open Wire Registry

/-!
Embedding of the trace decoder (`parser.parse` / `ParseTrace`).  Go
panics (`expect` failures, unknown object names, unregistered uids, uid
mismatches, failed type assertions) are recovered by `ParseTrace` into an
error return; they are modelled via the `Except` error monad, so every
panic surfaces as an `.error` result.
-/

/-- `objnameToUid`: require the `gocovObject` prefix, then `Atoi` the
remainder; any failure panics (`none`). -/
def objnameToUid (s : String) : Option Int :=
  if "gocovObject".data.isPrefixOf s.data then
    atoi? ⟨s.data.drop "gocovObject".data.length⟩
  else none

/-- Decoder state: the fresh `Context` being replayed into, plus the
decoded packages in registration order (`parser.packages`).  The
`objects` map of the Go parser is subsumed by the context's own object
table: every map entry is stored under the object's own (checked) uid. -/
structure PSt where
  ctx : Ctx
  packages : List Nat
deriving DecidableEq, Repr

/-- Map lookup `p.objects[uid]` (a negative uid is simply absent). -/
def PSt.lookup (st : PSt) (uid : Int) : Option ObjData :=
  if uid < 0 then none else st.ctx.find? uid.toNat

/-- `parser.parseRegisterPackage`, starting after the command ident. -/
def parseRegisterPackage (toks : List Tok) (st : PSt) :
    Except String (PSt × List Tok) :=
  match toks with
  | .lparen :: .str name :: .rparen :: .colon :: .ident lit :: rest =>
    match objnameToUid lit with
    | none => .error "expected gocov object name"
    | some uid =>
      let r := st.ctx.registerPackage name
      if (r.2 : Int) = uid then
        .ok (⟨r.1, st.packages ++ [r.2]⟩, rest)
      else .error "uid differs: source must have changed"
  | _ => .error "unexpected token"

/-- `parser.parseRegisterFunction` (Atoi errors are discarded by the
source, yielding 0). -/
def parseRegisterFunction (pkgUid : Nat) (toks : List Tok) (st : PSt) :
    Except String (PSt × List Tok) :=
  match toks with
  | .lparen :: .str name :: .comma :: .str file :: .comma :: .intLit s1 ::
      .comma :: .intLit s2 :: .rparen :: .colon :: .ident lit :: rest =>
    match objnameToUid lit with
    | none => .error "expected gocov object name"
    | some uid =>
      let r := st.ctx.registerFunction pkgUid name file
        ((atoi? s1).getD 0) ((atoi? s2).getD 0)
      if (r.2 : Int) = uid then
        .ok (⟨r.1, st.packages⟩, rest)
      else .error "uid differs: source must have changed"
  | _ => .error "unexpected token"

/-- `parser.parseRegisterStatement`. -/
def parseRegisterStatement (fnUid : Nat) (toks : List Tok) (st : PSt) :
    Except String (PSt × List Tok) :=
  match toks with
  | .lparen :: .intLit s1 :: .comma :: .intLit s2 :: .rparen :: .colon ::
      .ident lit :: rest =>
    match objnameToUid lit with
    | none => .error "expected gocov object name"
    | some uid =>
      let r := st.ctx.registerStatement fnUid
        ((atoi? s1).getD 0) ((atoi? s2).getD 0)
      if (r.2 : Int) = uid then
        .ok (⟨r.1, st.packages⟩, rest)
      else .error "uid differs: source must have changed"
  | _ => .error "unexpected token"

/-- `parser.parseEnterLeave`. -/
def parseEnterLeave (entered : Bool) (u : Nat) (toks : List Tok) (st : PSt) :
    Except String (PSt × List Tok) :=
  match toks with
  | .lparen :: .rparen :: rest =>
    .ok (⟨if entered then (st.ctx.enter u).1 else (st.ctx.leave u).1,
      st.packages⟩, rest)
  | _ => .error "unexpected token"

/-- `parser.parseAt`. -/
def parseAt (u : Nat) (toks : List Tok) (st : PSt) :
    Except String (PSt × List Tok) :=
  match toks with
  | .lparen :: .rparen :: rest =>
    .ok (⟨(st.ctx.at_ u).1, st.packages⟩, rest)
  | _ => .error "unexpected token"

/-- The method dispatch of `parser.parse`, including the runtime type
assertions (`obj.(*gocov.Package)` etc.); a method name matching no case
falls through silently, as a Go `switch` does. -/
def dispatch (meth : String) (data : ObjData) (u : Nat) (toks : List Tok)
    (st : PSt) : Except String (PSt × List Tok) :=
  if meth = "RegisterFunction" then
    match data with
    | .pkg _ _ => parseRegisterFunction u toks st
    | _ => .error "interface conversion: not a Package"
  else if meth = "RegisterStatement" then
    match data with
    | .fn _ _ _ _ _ _ _ => parseRegisterStatement u toks st
    | _ => .error "interface conversion: not a Function"
  else if meth = "Enter" then
    match data with
    | .fn _ _ _ _ _ _ _ => parseEnterLeave true u toks st
    | _ => .error "interface conversion: not a Function"
  else if meth = "Leave" then
    match data with
    | .fn _ _ _ _ _ _ _ => parseEnterLeave false u toks st
    | _ => .error "interface conversion: not a Function"
  else if meth = "At" then
    match data with
    | .stmt _ _ _ => parseAt u toks st
    | _ => .error "interface conversion: not a Statement"
  else .ok (st, toks)

/-- The trailing `p.next(); p.expect(token.SEMICOLON)` of the loop
body. -/
def expectSemi (r : Except String (PSt × List Tok)) :
    Except String (PSt × List Tok) :=
  match r with
  | .ok (st, .semicolon :: rest) => .ok (st, rest)
  | .ok (_, _) => .error "expected semicolon"
  | .error e => .error e

/-- One iteration of the `parser.parse` loop: an identifier, then either
a `RegisterPackage` command or an object reference with a method call. -/
def parseLine (toks : List Tok) (st : PSt) :
    Except String (PSt × List Tok) :=
  match toks with
  | .ident lit :: rest =>
    if lit = "RegisterPackage" then
      expectSemi (parseRegisterPackage rest st)
    else
      match objnameToUid lit with
      | none => .error "expected gocov object name"
      | some uid =>
        match st.lookup uid with
        | none => .error "invalid object uid"
        | some data =>
          match rest with
          | .period :: .ident meth :: rest2 =>
            expectSemi (dispatch meth data uid.toNat rest2 st)
          | _ => .error "unexpected token"
  | _ => .error "expected identifier"

/-- The `parser.parse` loop, with fuel; one unit of fuel per line.  Any
panic of the loop body surfaces as an `.error`. -/
def decodeLoop : Nat → List Tok → PSt → Except String PSt
  | _, [], st => .ok st
  | 0, _ :: _, _ => .error "out of fuel"
  | fuel + 1, toks, st =>
    match parseLine toks st with
    | .ok (st', rest) => decodeLoop fuel rest st'
    | .error e => .error e

/-- `ParseTrace` (the decoding phase): replay a token stream against a
fresh `Context`.  Every line consumes at least one token, so
`toks.length` fuel can never run out. -/
def ParseTrace (toks : List Tok) : Except String PSt :=
  decodeLoop toks.length toks ⟨⟨[], 0⟩, []⟩

theorem isPrefixOf_append_self (l m : List Char) :
    l.isPrefixOf (l ++ m) = true := by
  induction l with
  | nil => simp [List.isPrefixOf]
  | cons c cs ih => simp [List.isPrefixOf, ih]

theorem data_refStr (u : Nat) :
    (refStr u).data = "gocovObject".data ++ natChars u := by
  unfold refStr itoa
  rw [if_neg (by omega)]
  rw [String.data_append]
  congr 1

theorem objnameToUid_refStr (u : Nat) :
    objnameToUid (refStr u) = some (u : Int) := by
  unfold objnameToUid
  rw [data_refStr, if_pos (isPrefixOf_append_self _ _), List.drop_left]
  exact atoi_natStr u

theorem refStr_ne_RegisterPackage (u : Nat) : refStr u ≠ "RegisterPackage" := by
  intro h
  have hpre : "gocovObject".data.isPrefixOf (refStr u).data = true := by
    rw [data_refStr]
    exact isPrefixOf_append_self _ _
  rw [h] at hpre
  exact absurd hpre (by decide)

theorem allocUid_congr {c₁ c₂ : Ctx} (h : c₁.objects = c₂.objects) :
    c₁.allocUid = c₂.allocUid := by
  unfold Ctx.allocUid
  rw [h]

theorem lookup_natCast (st : PSt) (u : Nat) :
    st.lookup (u : Int) = st.ctx.find? u := by
  simp only [PSt.lookup]
  rw [if_neg (by omega), Int.toNat_natCast]

theorem step_registerPackage (cS : Ctx) (stD : PSt) (name : String)
    (rest : List Tok) (hobj : stD.ctx.objects = cS.objects) :
    parseLine (encRegisterPackage name cS.allocUid ++ rest) stD =
      .ok (⟨(stD.ctx.registerPackage name).1,
        stD.packages ++ [cS.allocUid]⟩, rest) := by
  have hac : stD.ctx.allocUid = cS.allocUid := allocUid_congr hobj
  simp [encRegisterPackage, parseLine, parseRegisterPackage,
    objnameToUid_refStr, Ctx.registerPackage, hac, expectSemi]

theorem step_registerFunction (cS : Ctx) (stD : PSt) (p : Nat)
    (name file : String) (s e : Int) (n : String) (fs : List Nat)
    (rest : List Tok) (hobj : stD.ctx.objects = cS.objects)
    (hp : cS.find? p = some (.pkg n fs)) (hs : 0 ≤ s) (he : 0 ≤ e) :
    parseLine (encRegisterFunction p name file s e cS.allocUid ++ rest) stD =
      .ok (⟨(stD.ctx.registerFunction p name file s e).1,
        stD.packages⟩, rest) := by
  have hac : stD.ctx.allocUid = cS.allocUid := allocUid_congr hobj
  have hfind : stD.ctx.find? p = some (.pkg n fs) := by
    simp only [Ctx.find?] at hp ⊢
    rw [hobj]
    exact hp
  simp only [encRegisterFunction, List.cons_append, parseLine]
  rw [if_neg (refStr_ne_RegisterPackage p)]
  simp only [objnameToUid_refStr, lookup_natCast, hfind, Int.toNat_natCast]
  simp [dispatch, parseRegisterFunction, objnameToUid_refStr,
    atoi_itoa s hs, atoi_itoa e he, Ctx.registerFunction, hac, expectSemi]

theorem step_registerStatement (cS : Ctx) (stD : PSt) (fu : Nat)
    (s e : Int) (n fl : String) (s0 e0 : Int) (ss : List Nat) (en lv : Int)
    (rest : List Tok) (hobj : stD.ctx.objects = cS.objects)
    (hf : cS.find? fu = some (.fn n fl s0 e0 ss en lv))
    (hs : 0 ≤ s) (he : 0 ≤ e) :
    parseLine (encRegisterStatement fu s e cS.allocUid ++ rest) stD =
      .ok (⟨(stD.ctx.registerStatement fu s e).1, stD.packages⟩, rest) := by
  have hac : stD.ctx.allocUid = cS.allocUid := allocUid_congr hobj
  have hfind : stD.ctx.find? fu = some (.fn n fl s0 e0 ss en lv) := by
    simp only [Ctx.find?] at hf ⊢
    rw [hobj]
    exact hf
  simp only [encRegisterStatement, List.cons_append, parseLine]
  rw [if_neg (refStr_ne_RegisterPackage fu)]
  simp only [objnameToUid_refStr, lookup_natCast, hfind, Int.toNat_natCast]
  simp [dispatch, parseRegisterStatement, objnameToUid_refStr,
    atoi_itoa s hs, atoi_itoa e he, Ctx.registerStatement, hac, expectSemi]

theorem step_enter (cS : Ctx) (stD : PSt) (fu : Nat)
    (n fl : String) (s0 e0 : Int) (ss : List Nat) (en lv : Int)
    (rest : List Tok) (hobj : stD.ctx.objects = cS.objects)
    (hf : cS.find? fu = some (.fn n fl s0 e0 ss en lv)) :
    parseLine (encEnter fu ++ rest) stD =
      .ok (⟨(stD.ctx.enter fu).1, stD.packages⟩, rest) := by
  have hfind : stD.ctx.find? fu = some (.fn n fl s0 e0 ss en lv) := by
    simp only [Ctx.find?] at hf ⊢
    rw [hobj]
    exact hf
  simp only [encEnter, List.cons_append, parseLine]
  rw [if_neg (refStr_ne_RegisterPackage fu)]
  simp only [objnameToUid_refStr, lookup_natCast, hfind, Int.toNat_natCast]
  simp [dispatch, parseEnterLeave, expectSemi]

theorem step_leave (cS : Ctx) (stD : PSt) (fu : Nat)
    (n fl : String) (s0 e0 : Int) (ss : List Nat) (en lv : Int)
    (rest : List Tok) (hobj : stD.ctx.objects = cS.objects)
    (hf : cS.find? fu = some (.fn n fl s0 e0 ss en lv)) :
    parseLine (encLeave fu ++ rest) stD =
      .ok (⟨(stD.ctx.leave fu).1, stD.packages⟩, rest) := by
  have hfind : stD.ctx.find? fu = some (.fn n fl s0 e0 ss en lv) := by
    simp only [Ctx.find?] at hf ⊢
    rw [hobj]
    exact hf
  simp only [encLeave, List.cons_append, parseLine]
  rw [if_neg (refStr_ne_RegisterPackage fu)]
  simp only [objnameToUid_refStr, lookup_natCast, hfind, Int.toNat_natCast]
  simp [dispatch, parseEnterLeave, expectSemi]

theorem registerPackage_objects_congr {c₁ cS : Ctx}
    (h : c₁.objects = cS.objects) (name : String) :
    (c₁.registerPackage name).1.objects =
      (cS.registerPackage name).1.objects := by
  simp [Ctx.registerPackage, h, allocUid_congr h]

theorem registerFunction_objects_congr {c₁ cS : Ctx}
    (h : c₁.objects = cS.objects) (p : Nat) (name file : String)
    (s e : Int) :
    (c₁.registerFunction p name file s e).1.objects =
      (cS.registerFunction p name file s e).1.objects := by
  simp [Ctx.registerFunction, Ctx.update, h, allocUid_congr h]

theorem registerStatement_objects_congr {c₁ cS : Ctx}
    (h : c₁.objects = cS.objects) (fu : Nat) (s e : Int) :
    (c₁.registerStatement fu s e).1.objects =
      (cS.registerStatement fu s e).1.objects := by
  simp [Ctx.registerStatement, Ctx.update, h, allocUid_congr h]

theorem enter_objects_congr {c₁ cS : Ctx}
    (h : c₁.objects = cS.objects) (u : Nat) :
    (c₁.enter u).1.objects = (cS.enter u).1.objects := by
  simp [Ctx.enter, Ctx.update, h]

theorem leave_objects_congr {c₁ cS : Ctx}
    (h : c₁.objects = cS.objects) (u : Nat) :
    (c₁.leave u).1.objects = (cS.leave u).1.objects := by
  simp [Ctx.leave, Ctx.update, h]

theorem at_objects_congr {c₁ cS : Ctx}
    (h : c₁.objects = cS.objects) (u : Nat) :
    (c₁.at_ u).1.objects = (cS.at_ u).1.objects := by
  simp [Ctx.at_, Ctx.update, h]

theorem step_at (cS : Ctx) (stD : PSt) (su : Nat)
    (s0 e0 r0 : Int) (rest : List Tok)
    (hobj : stD.ctx.objects = cS.objects)
    (hf : cS.find? su = some (.stmt s0 e0 r0)) :
    parseLine (encAt su ++ rest) stD =
      .ok (⟨(stD.ctx.at_ su).1, stD.packages⟩, rest) := by
  have hfind : stD.ctx.find? su = some (.stmt s0 e0 r0) := by
    simp only [Ctx.find?] at hf ⊢
    rw [hobj]
    exact hf
  simp only [encAt, List.cons_append, parseLine]
  rw [if_neg (refStr_ne_RegisterPackage su)]
  simp only [objnameToUid_refStr, lookup_natCast, hfind, Int.toNat_natCast]
  simp [dispatch, parseAt, expectSemi]

theorem execOp_traceFlags (c : Ctx) (op : Op) :
    (execOp c op).1.traceFlags = c.traceFlags := by
  cases op with
  | registerPackage name => rfl
  | registerFunction p n f s e =>
    simp only [execOp]
    cases hf : c.find? p with
    | none => rfl
    | some d => cases d <;> rfl
  | registerStatement fu s e =>
    simp only [execOp]
    cases hf : c.find? fu with
    | none => rfl
    | some d => cases d <;> rfl
  | enter fu =>
    simp only [execOp]
    cases hf : c.find? fu with
    | none => rfl
    | some d => cases d <;> rfl
  | leave fu =>
    simp only [execOp]
    cases hf : c.find? fu with
    | none => rfl
    | some d => cases d <;> rfl
  | at_ su =>
    simp only [execOp]
    cases hf : c.find? su with
    | none => rfl
    | some d => cases d <;> rfl

theorem decodeLoop_cons (fuel : Nat) (t : Tok) (ts : List Tok) (st : PSt) :
    decodeLoop (fuel + 1) (t :: ts) st =
      match parseLine (t :: ts) st with
      | .ok (st', rest) => decodeLoop fuel rest st'
      | .error e => .error e := rfl

theorem decodeLoop_step (fuel : Nat) (line rest : List Tok) (st st' : PSt)
    (hne : line ≠ [])
    (hline : parseLine (line ++ rest) st = .ok (st', rest)) :
    decodeLoop (fuel + 1) (line ++ rest) st = decodeLoop fuel rest st' := by
  cases line with
  | nil => exact absurd rfl hne
  | cons t ts =>
    rw [List.cons_append] at hline ⊢
    rw [decodeLoop_cons, hline]

/-- Replaying the trace emitted by a well-formed operation sequence
(under `TraceAll`) reconstructs the exact object table and package list
of the source registry. -/
theorem decode_run (ops : List Op) :
    ∀ (cS : Ctx) (stD : PSt) (fuel : Nat),
    stD.ctx.objects = cS.objects →
    cS.traceAll = true →
    wfFrom cS ops = true →
    ops.length ≤ fuel →
    ∃ stF, decodeLoop fuel (runOps cS ops).2 stD = .ok stF ∧
      stF.ctx.objects = (runOps cS ops).1.objects ∧
      stF.packages = stD.packages ++ runPkgUids cS ops := by
  induction ops with
  | nil =>
    intro cS stD fuel hobj hta hwf hfuel
    exact ⟨stD, by simp [runOps, decodeLoop], hobj, by simp [runPkgUids]⟩
  | cons op ops ih =>
    intro cS stD fuel hobj hta hwf hfuel
    simp only [wfFrom, Bool.and_eq_true] at hwf
    obtain ⟨hop, hrest⟩ := hwf
    have hac : stD.ctx.allocUid = cS.allocUid := allocUid_congr hobj
    have htaP : (execOp cS op).1.traceAll = true := by
      unfold Ctx.traceAll at hta ⊢
      rw [execOp_traceFlags]
      exact hta
    cases fuel with
    | zero => simp at hfuel
    | succ f =>
      have hfuel' : ops.length ≤ f := by
        simp only [List.length_cons] at hfuel
        omega
      cases op with
      | registerPackage name =>
        have hexec : execOp cS (Op.registerPackage name) =
            ((cS.registerPackage name).1,
              encRegisterPackage name cS.allocUid) := rfl
        have hc1 : (execOp cS (Op.registerPackage name)).1 =
            (cS.registerPackage name).1 := by rw [hexec]
        rw [hc1] at hrest htaP
        have hline := step_registerPackage cS stD name
          (runOps (cS.registerPackage name).1 ops).2 hobj
        have hstep := decodeLoop_step f _ _ stD _
          (by simp [encRegisterPackage]) hline
        obtain ⟨stF, hdec, ho, hp⟩ :=
          ih (cS.registerPackage name).1
            ⟨(stD.ctx.registerPackage name).1,
              stD.packages ++ [cS.allocUid]⟩ f
            (registerPackage_objects_congr hobj name) htaP hrest hfuel'
        refine ⟨stF, ?_, ?_, ?_⟩
        · have hrun2 : (runOps cS (Op.registerPackage name :: ops)).2 =
              encRegisterPackage name cS.allocUid ++
                (runOps (cS.registerPackage name).1 ops).2 := by
            simp only [runOps, hexec]
          rw [hrun2, hstep]
          exact hdec
        · have hrun1 : (runOps cS (Op.registerPackage name :: ops)).1 =
              (runOps (cS.registerPackage name).1 ops).1 := by
            simp only [runOps, hexec]
          rw [hrun1]
          exact ho
        · rw [hp]
          have hpk : runPkgUids cS (Op.registerPackage name :: ops) =
              [cS.allocUid] ++ runPkgUids (cS.registerPackage name).1 ops := by
            simp only [runPkgUids, hexec]
          rw [hpk]
          simp
      | registerFunction p name file s e =>
        cases hfind : cS.find? p with
        | none => rw [wfOp, hfind] at hop; simp at hop
        | some d =>
          cases d with
          | pkg n fs =>
            rw [wfOp, hfind] at hop
            simp only [Bool.and_eq_true, decide_eq_true_eq] at hop
            obtain ⟨⟨-, hs⟩, he⟩ := hop
            have hexec : execOp cS (Op.registerFunction p name file s e) =
                ((cS.registerFunction p name file s e).1,
                  encRegisterFunction p name file s e cS.allocUid) := by
              simp only [execOp, hfind]
              rfl
            have hc1 : (execOp cS (Op.registerFunction p name file s e)).1 =
                (cS.registerFunction p name file s e).1 := by rw [hexec]
            rw [hc1] at hrest htaP
            have hline := step_registerFunction cS stD p name file s e n fs
              (runOps (cS.registerFunction p name file s e).1 ops).2
              hobj hfind hs he
            have hstep := decodeLoop_step f _ _ stD _
              (by simp [encRegisterFunction]) hline
            obtain ⟨stF, hdec, ho, hp⟩ :=
              ih (cS.registerFunction p name file s e).1
                ⟨(stD.ctx.registerFunction p name file s e).1, stD.packages⟩ f
                (registerFunction_objects_congr hobj p name file s e)
                htaP hrest hfuel'
            refine ⟨stF, ?_, ?_, ?_⟩
            · have hrun2 : (runOps cS (Op.registerFunction p name file s e :: ops)).2 =
                  encRegisterFunction p name file s e cS.allocUid ++
                    (runOps (cS.registerFunction p name file s e).1 ops).2 := by
                simp only [runOps, hexec]
              rw [hrun2, hstep]
              exact hdec
            · have hrun1 : (runOps cS (Op.registerFunction p name file s e :: ops)).1 =
                  (runOps (cS.registerFunction p name file s e).1 ops).1 := by
                simp only [runOps, hexec]
              rw [hrun1]
              exact ho
            · rw [hp]
              have hpk : runPkgUids cS (Op.registerFunction p name file s e :: ops) =
                  runPkgUids (cS.registerFunction p name file s e).1 ops := by
                simp only [runPkgUids, hexec]
                simp
              rw [hpk]
          | fn n fl s0 e0 ss en lv => rw [wfOp, hfind] at hop; simp at hop
          | stmt s0 e0 r0 => rw [wfOp, hfind] at hop; simp at hop
      | registerStatement fu s e =>
        cases hfind : cS.find? fu with
        | none => rw [wfOp, hfind] at hop; simp at hop
        | some d =>
          cases d with
          | fn n fl s0 e0 ss en lv =>
            rw [wfOp, hfind] at hop
            simp only [Bool.and_eq_true, decide_eq_true_eq] at hop
            obtain ⟨⟨-, hs⟩, he⟩ := hop
            have hexec : execOp cS (Op.registerStatement fu s e) =
                ((cS.registerStatement fu s e).1,
                  encRegisterStatement fu s e cS.allocUid) := by
              simp only [execOp, hfind]
              rfl
            have hc1 : (execOp cS (Op.registerStatement fu s e)).1 =
                (cS.registerStatement fu s e).1 := by rw [hexec]
            rw [hc1] at hrest htaP
            have hline := step_registerStatement cS stD fu s e n fl s0 e0 ss
              en lv (runOps (cS.registerStatement fu s e).1 ops).2
              hobj hfind hs he
            have hstep := decodeLoop_step f _ _ stD _
              (by simp [encRegisterStatement]) hline
            obtain ⟨stF, hdec, ho, hp⟩ :=
              ih (cS.registerStatement fu s e).1
                ⟨(stD.ctx.registerStatement fu s e).1, stD.packages⟩ f
                (registerStatement_objects_congr hobj fu s e)
                htaP hrest hfuel'
            refine ⟨stF, ?_, ?_, ?_⟩
            · have hrun2 : (runOps cS (Op.registerStatement fu s e :: ops)).2 =
                  encRegisterStatement fu s e cS.allocUid ++
                    (runOps (cS.registerStatement fu s e).1 ops).2 := by
                simp only [runOps, hexec]
              rw [hrun2, hstep]
              exact hdec
            · have hrun1 : (runOps cS (Op.registerStatement fu s e :: ops)).1 =
                  (runOps (cS.registerStatement fu s e).1 ops).1 := by
                simp only [runOps, hexec]
              rw [hrun1]
              exact ho
            · rw [hp]
              have hpk : runPkgUids cS (Op.registerStatement fu s e :: ops) =
                  runPkgUids (cS.registerStatement fu s e).1 ops := by
                simp only [runPkgUids, hexec]
                simp
              rw [hpk]
          | pkg n fs => rw [wfOp, hfind] at hop; simp at hop
          | stmt s0 e0 r0 => rw [wfOp, hfind] at hop; simp at hop
      | enter fu =>
        cases hfind : cS.find? fu with
        | none => rw [wfOp, hfind] at hop; simp at hop
        | some d =>
          cases d with
          | fn n fl s0 e0 ss en lv =>
            have hexec : execOp cS (Op.enter fu) =
                ((cS.enter fu).1, encEnter fu) := by
              simp only [execOp, hfind]
              rw [if_pos (Or.inr hta)]
            have hc1 : (execOp cS (Op.enter fu)).1 = (cS.enter fu).1 := by
              rw [hexec]
            rw [hc1] at hrest htaP
            have hline := step_enter cS stD fu n fl s0 e0 ss en lv
              (runOps (cS.enter fu).1 ops).2 hobj hfind
            have hstep := decodeLoop_step f _ _ stD _
              (by simp [encEnter]) hline
            obtain ⟨stF, hdec, ho, hp⟩ :=
              ih (cS.enter fu).1 ⟨(stD.ctx.enter fu).1, stD.packages⟩ f
                (enter_objects_congr hobj fu) htaP hrest hfuel'
            refine ⟨stF, ?_, ?_, ?_⟩
            · have hrun2 : (runOps cS (Op.enter fu :: ops)).2 =
                  encEnter fu ++ (runOps (cS.enter fu).1 ops).2 := by
                simp only [runOps, hexec]
              rw [hrun2, hstep]
              exact hdec
            · have hrun1 : (runOps cS (Op.enter fu :: ops)).1 =
                  (runOps (cS.enter fu).1 ops).1 := by
                simp only [runOps, hexec]
              rw [hrun1]
              exact ho
            · rw [hp]
              have hpk : runPkgUids cS (Op.enter fu :: ops) =
                  runPkgUids (cS.enter fu).1 ops := by
                simp only [runPkgUids, hexec]
                simp
              rw [hpk]
          | pkg n fs => rw [wfOp, hfind] at hop; simp at hop
          | stmt s0 e0 r0 => rw [wfOp, hfind] at hop; simp at hop
      | leave fu =>
        cases hfind : cS.find? fu with
        | none => rw [wfOp, hfind] at hop; simp at hop
        | some d =>
          cases d with
          | fn n fl s0 e0 ss en lv =>
            have hexec : execOp cS (Op.leave fu) =
                ((cS.leave fu).1, encLeave fu) := by
              simp only [execOp, hfind]
              rw [if_pos (Or.inr hta)]
            have hc1 : (execOp cS (Op.leave fu)).1 = (cS.leave fu).1 := by
              rw [hexec]
            rw [hc1] at hrest htaP
            have hline := step_leave cS stD fu n fl s0 e0 ss en lv
              (runOps (cS.leave fu).1 ops).2 hobj hfind
            have hstep := decodeLoop_step f _ _ stD _
              (by simp [encLeave]) hline
            obtain ⟨stF, hdec, ho, hp⟩ :=
              ih (cS.leave fu).1 ⟨(stD.ctx.leave fu).1, stD.packages⟩ f
                (leave_objects_congr hobj fu) htaP hrest hfuel'
            refine ⟨stF, ?_, ?_, ?_⟩
            · have hrun2 : (runOps cS (Op.leave fu :: ops)).2 =
                  encLeave fu ++ (runOps (cS.leave fu).1 ops).2 := by
                simp only [runOps, hexec]
              rw [hrun2, hstep]
              exact hdec
            · have hrun1 : (runOps cS (Op.leave fu :: ops)).1 =
                  (runOps (cS.leave fu).1 ops).1 := by
                simp only [runOps, hexec]
              rw [hrun1]
              exact ho
            · rw [hp]
              have hpk : runPkgUids cS (Op.leave fu :: ops) =
                  runPkgUids (cS.leave fu).1 ops := by
                simp only [runPkgUids, hexec]
                simp
              rw [hpk]
          | pkg n fs => rw [wfOp, hfind] at hop; simp at hop
          | stmt s0 e0 r0 => rw [wfOp, hfind] at hop; simp at hop
      | at_ su =>
        cases hfind : cS.find? su with
        | none => rw [wfOp, hfind] at hop; simp at hop
        | some d =>
          cases d with
          | stmt s0 e0 r0 =>
            have hexec : execOp cS (Op.at_ su) =
                ((cS.at_ su).1, encAt su) := by
              simp only [execOp, hfind]
              rw [if_pos (Or.inr hta)]
            have hc1 : (execOp cS (Op.at_ su)).1 = (cS.at_ su).1 := by
              rw [hexec]
            rw [hc1] at hrest htaP
            have hline := step_at cS stD su s0 e0 r0
              (runOps (cS.at_ su).1 ops).2 hobj hfind
            have hstep := decodeLoop_step f _ _ stD _
              (by simp [encAt]) hline
            obtain ⟨stF, hdec, ho, hp⟩ :=
              ih (cS.at_ su).1 ⟨(stD.ctx.at_ su).1, stD.packages⟩ f
                (at_objects_congr hobj su) htaP hrest hfuel'
            refine ⟨stF, ?_, ?_, ?_⟩
            · have hrun2 : (runOps cS (Op.at_ su :: ops)).2 =
                  encAt su ++ (runOps (cS.at_ su).1 ops).2 := by
                simp only [runOps, hexec]
              rw [hrun2, hstep]
              exact hdec
            · have hrun1 : (runOps cS (Op.at_ su :: ops)).1 =
                  (runOps (cS.at_ su).1 ops).1 := by
                simp only [runOps, hexec]
              rw [hrun1]
              exact ho
            · rw [hp]
              have hpk : runPkgUids cS (Op.at_ su :: ops) =
                  runPkgUids (cS.at_ su).1 ops := by
                simp only [runPkgUids, hexec]
                simp
              rw [hpk]
          | pkg n fs => rw [wfOp, hfind] at hop; simp at hop
          | fn n fl s0 e0 ss en lv => rw [wfOp, hfind] at hop; simp at hop

/-- Under `TraceAll`, every well-formed operation emits at least one
token, so the trace has at least one token per operation. -/
theorem runOps_tokens_length (ops : List Op) :
    ∀ cS : Ctx, cS.traceAll = true → wfFrom cS ops = true →
      ops.length ≤ (runOps cS ops).2.length := by
  induction ops with
  | nil => intro cS _ _; simp [runOps]
  | cons op ops ih =>
    intro cS hta hwf
    simp only [wfFrom, Bool.and_eq_true] at hwf
    obtain ⟨hop, hrest⟩ := hwf
    have htaP : (execOp cS op).1.traceAll = true := by
      unfold Ctx.traceAll at hta ⊢
      rw [execOp_traceFlags]
      exact hta
    have hrec := ih (execOp cS op).1 htaP hrest
    have hone : 1 ≤ (execOp cS op).2.length := by
      cases op with
      | registerPackage name => simp [execOp, Ctx.registerPackage,
          encRegisterPackage]
      | registerFunction p n f s e =>
        cases hfind : cS.find? p with
        | none => rw [wfOp, hfind] at hop; simp at hop
        | some d =>
          cases d with
          | pkg nn fs => simp [execOp, hfind, encRegisterFunction]
          | fn n1 f1 s1 e1 ss en lv => rw [wfOp, hfind] at hop; simp at hop
          | stmt s1 e1 r1 => rw [wfOp, hfind] at hop; simp at hop
      | registerStatement fu s e =>
        cases hfind : cS.find? fu with
        | none => rw [wfOp, hfind] at hop; simp at hop
        | some d =>
          cases d with
          | fn n1 f1 s1 e1 ss en lv =>
            simp [execOp, hfind, encRegisterStatement]
          | pkg nn fs => rw [wfOp, hfind] at hop; simp at hop
          | stmt s1 e1 r1 => rw [wfOp, hfind] at hop; simp at hop
      | enter fu =>
        cases hfind : cS.find? fu with
        | none => rw [wfOp, hfind] at hop; simp at hop
        | some d =>
          cases d with
          | fn n1 f1 s1 e1 ss en lv =>
            simp only [execOp, hfind]
            rw [if_pos (Or.inr hta)]
            simp [encEnter]
          | pkg nn fs => rw [wfOp, hfind] at hop; simp at hop
          | stmt s1 e1 r1 => rw [wfOp, hfind] at hop; simp at hop
      | leave fu =>
        cases hfind : cS.find? fu with
        | none => rw [wfOp, hfind] at hop; simp at hop
        | some d =>
          cases d with
          | fn n1 f1 s1 e1 ss en lv =>
            simp only [execOp, hfind]
            rw [if_pos (Or.inr hta)]
            simp [encLeave]
          | pkg nn fs => rw [wfOp, hfind] at hop; simp at hop
          | stmt s1 e1 r1 => rw [wfOp, hfind] at hop; simp at hop
      | at_ su =>
        cases hfind : cS.find? su with
        | none => rw [wfOp, hfind] at hop; simp at hop
        | some d =>
          cases d with
          | stmt s1 e1 r1 =>
            simp only [execOp, hfind]
            rw [if_pos (Or.inr hta)]
            simp [encAt]
          | pkg nn fs => rw [wfOp, hfind] at hop; simp at hop
          | fn n1 f1 s1 e1 ss en lv => rw [wfOp, hfind] at hop; simp at hop
    simp only [runOps, List.length_cons, List.length_append]
    omega

/-- **C3 (amended)** — wire-protocol round-trip holds in trace-all mode:
for every well-formed operation sequence executed against a fresh
registry with `TraceAll` set, decoding the emitted trace into a fresh
registry reproduces the *identical* object table (all package, function
and statement structural fields, child lists, and the `Entered`, `Left`
and `Reached` counters) and the package list in registration order.
Under the default flags the trace records only the first visit to each
object, so counters larger than one are not reproduced (see the
counterexample). -/
theorem trace_roundtrip_traceall (ops : List Op)
    (hwf : wfFrom ⟨[], TraceAllFlag⟩ ops = true) :
    ∃ stF, ParseTrace (runOps ⟨[], TraceAllFlag⟩ ops).2 = .ok stF ∧
      stF.ctx.objects = (runOps ⟨[], TraceAllFlag⟩ ops).1.objects ∧
      stF.packages = runPkgUids ⟨[], TraceAllFlag⟩ ops := by
  have hta : (⟨[], TraceAllFlag⟩ : Ctx).traceAll = true := rfl
  have hlen := runOps_tokens_length ops ⟨[], TraceAllFlag⟩ hta hwf
  obtain ⟨stF, h1, h2, h3⟩ := decode_run ops ⟨[], TraceAllFlag⟩ ⟨⟨[], 0⟩, []⟩
    (runOps ⟨[], TraceAllFlag⟩ ops).2.length rfl hta hwf hlen
  exact ⟨stF, h1, h2, by simpa using h3⟩

/-- Witness for the amended C3: a concrete run — one package, one
function with one statement, entered twice, statement reached once —
decodes to the exact source object table. -/
theorem trace_roundtrip_traceall_witness :
    ∃ stF, ParseTrace (runOps ⟨[], TraceAllFlag⟩
        [.registerPackage "p1", .registerFunction 0 "f1" "a.go" 0 5,
         .registerStatement 1 1 2, .enter 1, .at_ 2, .enter 1]).2 = .ok stF ∧
      stF.ctx.objects = (runOps ⟨[], TraceAllFlag⟩
        [.registerPackage "p1", .registerFunction 0 "f1" "a.go" 0 5,
         .registerStatement 1 1 2, .enter 1, .at_ 2, .enter 1]).1.objects ∧
      stF.packages = runPkgUids ⟨[], TraceAllFlag⟩
        [.registerPackage "p1", .registerFunction 0 "f1" "a.go" 0 5,
         .registerStatement 1 1 2, .enter 1, .at_ 2, .enter 1] :=
  trace_roundtrip_traceall
    [.registerPackage "p1", .registerFunction 0 "f1" "a.go" 0 5,
     .registerStatement 1 1 2, .enter 1, .at_ 2, .enter 1] (by decide)

/-- Counterexample to **C3** as stated (for *every* registry): with the
default trace flags only the first `Enter` is traced, so a function
entered twice decodes with `Entered = 1` while the source registry has
`Entered = 2` — the counters do not match exactly. -/
theorem trace_roundtrip_counterexample :
    (runOps ⟨[], 0⟩ [.registerPackage "p", .registerFunction 0 "f" "a.go" 0 1,
        .enter 1, .enter 1]).1.objects =
      [Obj.mk 0 (.pkg "p" [1]), Obj.mk 1 (.fn "f" "a.go" 0 1 [] 2 0)] ∧
    (ParseTrace (runOps ⟨[], 0⟩ [.registerPackage "p",
        .registerFunction 0 "f" "a.go" 0 1, .enter 1, .enter 1]).2).toOption =
      some ⟨⟨[Obj.mk 0 (.pkg "p" [1]), Obj.mk 1 (.fn "f" "a.go" 0 1 [] 1 0)],
        0⟩, [0]⟩ := by
  decide

/-- **C9** — malformed traces are rejected with an error, never by
terminating the process (panics are recovered into the error return):
(1) a line starting with anything but an identifier fails; (2) a
reference to a uid never registered fails; (3) a registration whose
encoded uid differs from the uid the fresh registry allocates (0 for the
first registration) fails. -/
theorem parse_trace_malformed_errors :
    (∀ (t : Tok) (toks : List Tok), (∀ s, t ≠ .ident s) →
      ∃ e, ParseTrace (t :: toks) = .error e) ∧
    (∀ (u : Nat) (toks : List Tok),
      ∃ e, ParseTrace (.ident (refStr u) :: toks) = .error e) ∧
    (∀ (name : String) (u : Nat) (toks : List Tok), u ≠ 0 →
      ∃ e, ParseTrace (.ident "RegisterPackage" :: .lparen :: .str name ::
        .rparen :: .colon :: .ident (refStr u) :: toks) = .error e) := by
  refine ⟨?_, ?_, ?_⟩
  · intro t toks h
    cases t with
    | ident s => exact absurd rfl (h s)
    | str s => exact ⟨"expected identifier", rfl⟩
    | intLit s => exact ⟨"expected identifier", rfl⟩
    | lparen => exact ⟨"expected identifier", rfl⟩
    | rparen => exact ⟨"expected identifier", rfl⟩
    | comma => exact ⟨"expected identifier", rfl⟩
    | period => exact ⟨"expected identifier", rfl⟩
    | colon => exact ⟨"expected identifier", rfl⟩
    | semicolon => exact ⟨"expected identifier", rfl⟩
  · intro u toks
    refine ⟨"invalid object uid", ?_⟩
    simp only [ParseTrace, List.length_cons, decodeLoop_cons]
    have hline : parseLine (.ident (refStr u) :: toks) ⟨⟨[], 0⟩, []⟩ =
        .error "invalid object uid" := by
      simp only [parseLine]
      rw [if_neg (refStr_ne_RegisterPackage u)]
      simp [objnameToUid_refStr, lookup_natCast, Ctx.find?, findData]
    rw [hline]
  · intro name u toks hu
    refine ⟨"uid differs: source must have changed", ?_⟩
    simp only [ParseTrace, List.length_cons, decodeLoop_cons]
    have hline : parseLine (.ident "RegisterPackage" :: .lparen ::
        .str name :: .rparen :: .colon :: .ident (refStr u) :: toks)
        ⟨⟨[], 0⟩, []⟩ = .error "uid differs: source must have changed" := by
      have hne : ¬((((⟨⟨[], 0⟩, []⟩ : PSt).ctx.registerPackage name).2 : Int) =
          (u : Int)) := by
        simp only [Ctx.registerPackage]
        intro h
        have h2 : ((⟨[], 0⟩ : Ctx).allocUid : Int) = (u : Int) := h
        have h0 : (⟨[], 0⟩ : Ctx).allocUid = 0 := rfl
        rw [h0] at h2
        exact hu (by exact_mod_cast h2.symm)
      simp only [parseLine, if_true]
      simp only [parseRegisterPackage, objnameToUid_refStr]
      rw [if_neg hne]
      simp [expectSemi]
    rw [hline]

/-- Witness for C9 at concrete malformed inputs. -/
theorem parse_trace_malformed_errors_witness :
    (∃ e, ParseTrace [.lparen] = .error e) ∧
    (∃ e, ParseTrace [.ident (refStr 7)] = .error e) ∧
    (∃ e, ParseTrace [.ident "RegisterPackage", .lparen, .str "p",
      .rparen, .colon, .ident (refStr 7)] = .error e) :=
  ⟨parse_trace_malformed_errors.1 .lparen [] (fun s h => by cases h),
   parse_trace_malformed_errors.2.1 7 [],
   parse_trace_malformed_errors.2.2 "p" 7 [] (by decide)⟩

end Parser
